import Mathlib

/-!
# Verification of the softlight browser-automation agent

Shallow embedding of the core of the repository:

* `agent/executor.py` — `Executor.run` (batch loop), `Executor.run_reactive`
  (reactive loop) and the four registered action handlers
  (`_handle_navigate`, `_handle_click`, `_handle_type`, `_handle_wait_for`);
* `agent/planner.py` — the response-handling tail of `plan_next_step`;
* `agent/browser.py` — `clean_dom` and `dom_changed`;
* `agent/capture.py` — `capture_state` / `detect_and_capture` (modelled as the
  list of capture indices produced by a run).

Python dictionaries coming from JSON are modelled by the inductive `Json`
below (field order is kept; the planner emits a fixed field order, so dict
equality is modelled as ordered-field equality).  External collaborators
(the Playwright page, the OpenAI client) are modelled as oracles: boolean
functions that say whether a given browser call succeeds, mirroring the
places where the Python code can raise.
-/

namespace Softlight

mutual
/-- A JSON value, the type of the step dictionaries that flow between the
planner (`plan_next_step`) and the executor loops.  `JsonList` and
`JsonFields` are just `List Json` and `List (String × Json)` written as
mutual inductives so that decidable equality can be derived. -/
inductive Json where
  | null : Json
  | bool (b : Bool) : Json
  | num (n : Int) : Json
  | str (s : String) : Json
  | arr (elems : JsonList) : Json
  | obj (fields : JsonFields) : Json
deriving DecidableEq
inductive JsonList where
  | nil : JsonList
  | cons (hd : Json) (tl : JsonList) : JsonList
deriving DecidableEq
inductive JsonFields where
  | nil : JsonFields
  | cons (key : String) (val : Json) (tl : JsonFields) : JsonFields
deriving DecidableEq
end

/-- Build an object field list from an ordinary list. -/
def JsonFields.ofList : List (String × Json) → JsonFields
  | [] => .nil
  | (k, v) :: rest => .cons k v (JsonFields.ofList rest)

/-- Python `fields.get(key)` on a dict rendered as an ordered field list. -/
def lookupField : JsonFields → String → Option Json
  | .nil, _ => none
  | .cons k v rest, key => if k = key then some v else lookupField rest key

/-- Python dict get and key-membership support on a `Json` value. -/
def jsonGet : Json → String → Option Json
  | .obj fields, key => lookupField fields key
  | _, _ => none

/-- Python truthiness of a JSON-shaped value (`if step and ...`). -/
def truthy : Json → Bool
  | .null => false
  | .bool b => b
  | .num n => decide (n ≠ 0)
  | .str s => decide (s ≠ "")
  | .arr .nil => false
  | .arr (.cons _ _) => true
  | .obj .nil => false
  | .obj (.cons _ _ _) => true

/-- Test whether `u` is a prefix of `v` (character lists). -/
def isPrefixList : List Char → List Char → Bool
  | [], _ => true
  | _ :: _, [] => false
  | a :: as, b :: bs => a = b && isPrefixList as bs

/-- Python substring containment `u in v` on character lists. -/
def hasSubstring (needle : List Char) : List Char → Bool
  | [] => isPrefixList needle []
  | c :: rest => isPrefixList needle (c :: rest) || hasSubstring needle rest

/-- Membership of the string `"done"` in a JSON array. -/
def arrHasDone : JsonList → Bool
  | .nil => false
  | .cons x rest => x = Json.str "done" || arrHasDone rest

/-- Membership of the key `"done"` in a JSON object. -/
def fieldsHaveDone : JsonFields → Bool
  | .nil => false
  | .cons k _ rest => k = "done" || fieldsHaveDone rest

/-- Python `"done" in step`: key lookup for dicts, substring test for
strings, membership for lists; `none` models the `TypeError` raised for
numbers, booleans and `None`. -/
def containsDone : Json → Option Bool
  | .obj fields => some (fieldsHaveDone fields)
  | .str s => some (hasSubstring "done".data s.data)
  | .arr l => some (arrHasDone l)
  | .null => none
  | .bool _ => none
  | .num _ => none

/-- Result of one call to `plan_next_step` as seen by `run_reactive`:
either the call raised (rate-limit/API/JSON errors) or it returned
`None` (completion) or a step value. -/
inductive PlannerOut where
  | raises : PlannerOut
  | ret (r : Option Json) : PlannerOut
deriving DecidableEq

/-- Model of the response-handling tail of `plan_next_step`
(`agent/planner.py`, lines 162-173):

    parsed_response = json.loads(response_content)
    step = parsed_response.get("step")
    if step and "done" in step:
        return None  # Task complete
    return step

The argument is the parsed JSON response; a non-object response raises
(`.get` on a non-dict is an `AttributeError`), and `"done" in step` raises
`TypeError` when `step` is a number, boolean or `None`. -/
def planNextStepOfResponse (parsedResponse : Json) : PlannerOut :=
  match parsedResponse with
  | .obj fields =>
    match lookupField fields "step" with
    | none => .ret none
    | some step =>
      if truthy step then
        match containsDone step with
        | none => .raises
        | some true => .ret none
        | some false => .ret (some step)
      else .ret (some step)
  | _ => .raises

/-- Why `run_reactive` stopped looping. -/
inductive EndReason where
  | completed : EndReason
  | invalidStepFormat : EndReason
  | repetitionLimit : EndReason
  | invalidParamsFormat : EndReason
  | unknownAction : EndReason
  | plannerError : EndReason
  | maxStepsReached : EndReason
  | outOfPlannerOutputs : EndReason
deriving DecidableEq

/-- The mutable locals of `run_reactive`: `step_index`, `step_history`,
`repeated_step_count`, together with the capture indices written so far
(`capture_state` / `detect_and_capture` calls) and the number of handler
invocations attempted. -/
structure LoopState where
  stepIndex : Nat
  history : List Json
  repeatedCount : Nat
  captures : List Nat
  dispatchCount : Nat
deriving DecidableEq

/-- State right after `capture_state(page, task_name, 0)` and the local
initialisations in `run_reactive` (executor.py lines 303-307). -/
def initLoopState : LoopState :=
  { stepIndex := 1, history := [], repeatedCount := 0, captures := [0], dispatchCount := 0 }

/-- Python `l[-n:]`. -/
def lastN (n : Nat) (l : List Json) : List Json := l.drop (l.length - n)

/-- Python check `isinstance(next_step, dict) and len(next_step) > 0`. -/
def isNonemptyObj : Json → Bool
  | .obj (.cons _ _ _) => true
  | _ => false

/-- Python `list(next_step.keys())[0]` and the associated params. -/
def firstKey : Json → Option (String × Json)
  | .obj (.cons k v _) => some (k, v)
  | _ => none

/-- Python check `isinstance(params, dict)`. -/
def isObj : Json → Bool
  | .obj _ => true
  | _ => false

/-- The handler names registered by `_register_default_actions`. -/
def defaultHandlers : List String := ["navigate", "click", "type", "wait_for"]

/-- Model of the `while step_index <= max_steps` loop of
`Executor.run_reactive` (executor.py lines 312-407).  One planner output is
consumed per iteration; `dispatchOk n` tells whether the `n`-th handler
invocation runs without raising (the browser is external).  Captures are
modelled as the list of step indices passed to `detect_and_capture` /
`capture_state`; `detect_and_capture` is called with `always_capture=True`
on both the success and the failure branch, and the screenshot write is
modelled as succeeding.  `.outOfPlannerOutputs` is returned when the
supplied planner transcript is too short to finish the run. -/
def runReactiveLoop (maxSteps : Nat) (handlers : List String) (dispatchOk : Nat → Bool) :
    List PlannerOut → LoopState → LoopState × EndReason
  | outs, st =>
    if maxSteps < st.stepIndex then (st, .maxStepsReached)
    else
      match outs with
      | [] => (st, .outOfPlannerOutputs)
      | o :: rest =>
        match o with
        | .raises => (st, .plannerError)
        | .ret none => (st, .completed)
        | .ret (some nextStep) =>
          if isNonemptyObj nextStep then
            if nextStep ∈ lastN 3 st.history then
              if 2 ≤ st.repeatedCount + 1 then
                ({ st with repeatedCount := st.repeatedCount + 1 }, .repetitionLimit)
              else
                runReactiveLoop maxSteps handlers dispatchOk rest
                  { st with repeatedCount := st.repeatedCount + 1 }
            else
              let st1 := { st with repeatedCount := 0 }
              match firstKey nextStep with
              | none => (st1, .invalidStepFormat)
              | some (action, params) =>
                if isObj params then
                  if action ∈ handlers then
                    runReactiveLoop maxSteps handlers dispatchOk rest
                      { st1 with
                        dispatchCount := st1.dispatchCount + 1
                        captures := st1.captures ++ [st1.stepIndex]
                        history :=
                          if dispatchOk st1.dispatchCount then st1.history ++ [nextStep]
                          else st1.history
                        stepIndex := st1.stepIndex + 1 }
                  else (st1, .unknownAction)
                else (st1, .invalidParamsFormat)
          else (st, .invalidStepFormat)

/-- The mutable locals of the batch entry point `Executor.run`. -/
structure BatchState where
  stepIndex : Nat
  captures : List Nat
  dispatchCount : Nat
deriving DecidableEq

/-- State right after `capture_state(page, self.task_name, 0)` in `run`
(executor.py lines 210-213). -/
def initBatchState : BatchState :=
  { stepIndex := 1, captures := [0], dispatchCount := 0 }

/-- Model of the `for step in steps` loop of `Executor.run` (executor.py
lines 215-269).  Invalid steps, non-dict params and unknown actions are
skipped with `step_index` still incremented and no capture; a dispatch
attempt captures its step index whether the handler raised or not. -/
def runBatchLoop (handlers : List String) (dispatchOk : Nat → Bool) :
    List Json → BatchState → BatchState
  | [], st => st
  | step :: rest, st =>
    if isNonemptyObj step then
      match firstKey step with
      | none => runBatchLoop handlers dispatchOk rest { st with stepIndex := st.stepIndex + 1 }
      | some (action, params) =>
        if isObj params then
          if action ∈ handlers then
            runBatchLoop handlers dispatchOk rest
              { st with
                stepIndex := st.stepIndex + 1
                dispatchCount := st.dispatchCount + 1
                captures := st.captures ++ [st.stepIndex] }
          else runBatchLoop handlers dispatchOk rest { st with stepIndex := st.stepIndex + 1 }
        else runBatchLoop handlers dispatchOk rest { st with stepIndex := st.stepIndex + 1 }
    else runBatchLoop handlers dispatchOk rest { st with stepIndex := st.stepIndex + 1 }

/-- A concrete well-formed planner step, `{"navigate": {"url": "https://a"}}`. -/
def navExample : Json :=
  .obj (.cons "navigate" (.obj (.cons "url" (.str "https://a") .nil)) .nil)

/-- A second concrete step, `{"click": {"selector": "button.contact"}}`. -/
def clickExample : Json :=
  .obj (.cons "click" (.obj (.cons "selector" (.str "button.contact") .nil)) .nil)

/-- A third concrete step, `{"wait_for": {"selector": "body"}}`. -/
def waitExample : Json :=
  .obj (.cons "wait_for" (.obj (.cons "selector" (.str "body") .nil)) .nil)

/-!
## Action handlers

The four handlers registered by `_register_default_actions` interact with a
Playwright page.  The page is external, so it is modelled as an oracle
(`PageOracle`) saying which browser calls succeed; a handler returns either
the raised exception message (`.error`) or the list of page effects it
performed (`.ok`), in order.
-/
/-- One observable side effect performed on the Playwright page. -/
inductive PageEffect where
  | goto (url : Json)
  | waitNetworkIdle (timeoutMs : Nat)
  | clickText (text : Json)
  | clickSelector (sel : Json)
  | fillLabel (strategy : Nat) (label : Json) (value : Json)
  | fillSelector (sel : Json) (value : Json)
  | waitForText (text : Json)
  | waitForSelector (sel : Json)
  | pauseMs (ms : Nat)
deriving DecidableEq

/-- Oracle for the external browser: which page calls succeed.
`labelStrategy i l` says whether strategy `i` (1-5) of `_handle_type`
locates an input for label `l`. -/
structure PageOracle where
  gotoOk : Json → Bool
  networkIdleWithin : Nat → Bool
  textFound : Json → Bool
  textVisible : Json → Bool
  selectorFound : Json → Bool
  labelStrategy : Nat → Json → Bool

/-- A page oracle on which every browser call succeeds. -/
def happyPage : PageOracle :=
  { gotoOk := fun _ => true, networkIdleWithin := fun _ => true,
    textFound := fun _ => true, textVisible := fun _ => true,
    selectorFound := fun _ => true, labelStrategy := fun _ _ => true }

/-- Render the located text into the hallucination error message of
`_handle_click`. -/
def jsonMsg : Json → String
  | .str s => s
  | _ => "value"

/-- Model of `Executor._handle_navigate` (executor.py lines 65-77):
require the `url` param, `page.goto(url, wait_until="domcontentloaded")`,
then `page.wait_for_load_state("networkidle", timeout=5000)`.  The
network-idle wait is NOT wrapped in a try/except, so its timeout raises
out of the handler. -/
def handleNavigate (pg : PageOracle) (params : Json) : Except String (List PageEffect) :=
  match jsonGet params "url" with
  | none => .error "navigate action missing url parameter"
  | some url =>
    if pg.gotoOk url then
      if pg.networkIdleWithin 5000 then .ok [.goto url, .waitNetworkIdle 5000]
      else .error "Timeout 5000ms exceeded waiting for networkidle"
    else .error "goto failed"

/-- Model of `Executor._handle_click` (executor.py lines 79-115): a `text`
param takes the text branch (resolution failure or invisibility raises the
hallucination `ValueError` carrying the text), otherwise a `selector` param
takes the selector branch, otherwise the missing-parameter `ValueError`;
a successful click is followed by the 500 ms UI pause. -/
def handleClick (pg : PageOracle) (params : Json) : Except String (List PageEffect) :=
  match jsonGet params "text" with
  | some t =>
    if pg.textFound t && pg.textVisible t then .ok [.clickText t, .pauseMs 500]
    else .error ("Text " ++ jsonMsg t ++ " not found on page")
  | none =>
    match jsonGet params "selector" with
    | some sel =>
      if pg.selectorFound sel then .ok [.clickSelector sel, .pauseMs 500]
      else .error "wait_for_selector timed out"
    | none => .error "click action missing text or selector parameter"

/-- First label strategy of `_handle_type` that succeeds, among the four
wrapped in try/except (1-4). -/
def firstLabelStrategy (pg : PageOracle) (label : Json) : Option Nat :=
  if pg.labelStrategy 1 label then some 1
  else if pg.labelStrategy 2 label then some 2
  else if pg.labelStrategy 3 label then some 3
  else if pg.labelStrategy 4 label then some 4
  else none

/-- Model of `Executor._handle_type` (executor.py lines 117-166): require
the `value` key (its value may be anything, including the empty string);
a `text` param tries label strategies 1-5 in order (strategy 5 raises if
it fails), a `selector` param waits for the selector then fills it, and a
successful fill is followed by the 300 ms pause. -/
def handleType (pg : PageOracle) (params : Json) : Except String (List PageEffect) :=
  match jsonGet params "value" with
  | none => .error "type action missing value parameter"
  | some value =>
    match jsonGet params "text" with
    | some label =>
      match firstLabelStrategy pg label with
      | some i => .ok [.fillLabel i label value, .pauseMs 300]
      | none =>
        if pg.labelStrategy 5 label then .ok [.fillLabel 5 label value, .pauseMs 300]
        else .error "no input found for label"
    | none =>
      match jsonGet params "selector" with
      | some sel =>
        if pg.selectorFound sel then .ok [.fillSelector sel value, .pauseMs 300]
        else .error "wait_for_selector timed out"
      | none => .error "type action missing text (label) or selector parameter"

/-- Model of `Executor._handle_wait_for` (executor.py lines 168-185). -/
def handleWaitFor (pg : PageOracle) (params : Json) : Except String (List PageEffect) :=
  match jsonGet params "text" with
  | some t =>
    if pg.textFound t then .ok [.waitForText t]
    else .error "wait_for timed out"
  | none =>
    match jsonGet params "selector" with
    | some sel =>
      if pg.selectorFound sel then .ok [.waitForSelector sel]
      else .error "wait_for_selector timed out"
    | none => .error "wait_for action missing text or selector parameter"

/-!
## The DOM comparator (`agent/browser.py`)

`clean_dom` parses HTML with BeautifulSoup (`html.parser`), decomposes
`script`/`style`/`meta`/`noscript` elements, deletes every attribute
outside `{class, type, role, aria-label}` and returns `soup.prettify()`.
A parsed document is modelled as a `Forest` of element/text nodes
(strings are modelled as `List Char`); `prettify` is modelled after bs4:
one space of indentation per nesting level, every tag on its own line,
text stripped and placed on its own line, attributes sorted by name and
entity-escaped with the minimal formatter (`&` `<` `>`).
-/
mutual
/-- A parsed markup node: an element with attributes and children, or a
text node. -/
inductive Tree where
  | el (name : List Char) (attrs : List (List Char × List Char)) (children : Forest) : Tree
  | txt (s : List Char) : Tree
deriving DecidableEq
/-- A list of sibling nodes (mutual with `Tree` so that decidable equality
can be derived). -/
inductive Forest where
  | nil : Forest
  | cons (hd : Tree) (tl : Forest) : Forest
deriving DecidableEq
end

/-- The tags decomposed by `clean_dom`:
`soup(["script", "style", "meta", "noscript"])`. -/
def bannedTags : List (List Char) :=
  ["script".data, "style".data, "meta".data, "noscript".data]

/-- The attribute allow-list of `clean_dom`:
`attrs_to_keep` listing class, type, role and aria-label. -/
def attrAllowlist : List (List Char) :=
  ["class".data, "type".data, "role".data, "aria-label".data]

mutual
/-- Model of the `tag.decompose()` pass of `clean_dom`: drop a banned element together
with its whole subtree. -/
def stripTagsT : Tree → Option Tree
  | .txt s => some (.txt s)
  | .el n a c => if n ∈ bannedTags then none else some (.el n a (stripTagsF c))
/-- The decompose pass over a forest. -/
def stripTagsF : Forest → Forest
  | .nil => .nil
  | .cons t tl =>
    match stripTagsT t with
    | none => stripTagsF tl
    | some t2 => .cons t2 (stripTagsF tl)
end

/-- Model of `del tag[attr]` for every attribute outside the allow-list. -/
def filterAttrs (attrs : List (List Char × List Char)) : List (List Char × List Char) :=
  attrs.filter (fun kv => kv.1 ∈ attrAllowlist)

mutual
/-- The attribute-filtering pass of `clean_dom` on one node. -/
def cleanAttrsT : Tree → Tree
  | .txt s => .txt s
  | .el n a c => .el n (filterAttrs a) (cleanAttrsF c)
/-- The attribute-filtering pass of `clean_dom` over a forest. -/
def cleanAttrsF : Forest → Forest
  | .nil => .nil
  | .cons t tl => .cons (cleanAttrsT t) (cleanAttrsF tl)
end

/-- Both passes of `clean_dom` before prettify-printing. -/
def cleanForest (f : Forest) : Forest := cleanAttrsF (stripTagsF f)

/-- Python `str.strip()` whitespace (ASCII). -/
def isSpaceChar (c : Char) : Bool :=
  c = ' ' || c = '\n' || c = '\t' || c = '\r' || c = '\x0b' || c = '\x0c'

/-- Drop trailing characters satisfying `p`. -/
def dropTrailing (p : Char → Bool) (l : List Char) : List Char :=
  (l.reverse.dropWhile p).reverse

/-- Python `str.strip()` on a character list. -/
def stripWs (l : List Char) : List Char := dropTrailing isSpaceChar (l.dropWhile isSpaceChar)

/-- The bs4 minimal output formatter on one character: escape `&` `<` `>`. -/
def escChar (c : Char) : List Char :=
  if c = '&' then "&amp;".data
  else if c = '<' then "&lt;".data
  else if c = '>' then "&gt;".data
  else [c]

/-- The bs4 minimal output formatter on a string. -/
def escapeMin (s : List Char) : List Char := s.flatMap escChar

/-- Lexicographic (code-point) string order, as Python `sorted` uses on the
attribute names. -/
def lexLe : List Char → List Char → Bool
  | [], _ => true
  | _ :: _, [] => false
  | a :: as, b :: bs => if a = b then lexLe as bs else decide (a < b)

/-- Order on attribute entries by name (the default bs4 formatter sorts the
attributes of a tag alphabetically when rendering). -/
def attrLe (x y : List Char × List Char) : Prop := lexLe x.1 y.1 = true

instance : DecidableRel attrLe := fun x y =>
  inferInstanceAs (Decidable (lexLe x.1 y.1 = true))

/-- Model of the attribute sorting done by the bs4 formatter when rendering. -/
def sortAttrs (attrs : List (List Char × List Char)) : List (List Char × List Char) :=
  List.insertionSort attrLe attrs

/-- Render the attributes of an open tag: ` name="escaped value"` each. -/
def renderAttrs (attrs : List (List Char × List Char)) : List Char :=
  attrs.flatMap (fun kv => ' ' :: (kv.1 ++ '=' :: '"' :: (escapeMin kv.2 ++ ['"'])))

/-- bs4 pretty-print indentation: one space per nesting level. -/
def indentOf (d : Nat) : List Char := List.replicate d ' '

mutual
/-- Model of `soup.prettify()` on one node at depth `d`: tags on their own lines,
text entity-escaped, stripped, and skipped when empty. -/
def prettyT (d : Nat) : Tree → List Char
  | .txt s =>
    let e := stripWs (escapeMin s)
    if e = [] then [] else indentOf d ++ e ++ ['\n']
  | .el n a c =>
    indentOf d ++ '<' :: (n ++ renderAttrs (sortAttrs a) ++ '>' :: '\n' ::
      (prettyF (d + 1) c ++ indentOf d ++ '<' :: '/' :: (n ++ '>' :: '\n' :: [])))
/-- Model of `soup.prettify()` over a forest at depth `d`. -/
def prettyF (d : Nat) : Forest → List Char
  | .nil => []
  | .cons t tl => prettyT d t ++ prettyF d tl
end

/-- Model of `clean_dom` on a parsed document: strip banned tags, filter attributes,
prettify. -/
def clean_dom (f : Forest) : List Char := prettyF 0 (cleanForest f)

/-!
### `difflib.SequenceMatcher.ratio`, used by `dom_changed`

Modelled from CPython `difflib.py` with `isjunk=None` (so the b-junk set is
empty and the two junk-extension loops of `find_longest_match` never fire)
and `autojunk=True` (characters of `b` appearing more than `len(b)//100+1`
times are dropped from `b2j` when `len(b) >= 200`).  Float arithmetic is
modelled over `ℚ`.
-/
/-- Occurrence map entry of `SequenceMatcher`: the ascending indices at which `x` occurs in `b`. -/
def b2jIndices (b : List Char) (x : Char) : List Nat :=
  (List.range b.length).filter (fun j => decide (b.getD j ' ' = x))

/-- The autojunk "popular" test of `SequenceMatcher.__chain_b`. -/
def isPopular (b : List Char) (x : Char) : Bool :=
  decide (200 ≤ b.length) && decide (b.length / 100 + 1 < (b2jIndices b x).length)

/-- Lookup in the occurrence map after the autojunk purge. -/
def b2jGet (b : List Char) (x : Char) : List Nat :=
  if isPopular b x then [] else b2jIndices b x

/-- Inner loop of `find_longest_match` over the occurrence list of `a[i]`:
threads `newj2len` and the current best `(besti, bestj, bestsize)`. -/
def flmRow (blo bhi i : Nat) (j2len : Nat → Nat) :
    List Nat → (Nat → Nat) → Nat × Nat × Nat → (Nat → Nat) × (Nat × Nat × Nat)
  | [], acc, best => (acc, best)
  | j :: rest, acc, best =>
    if j < blo then flmRow blo bhi i j2len rest acc best
    else if bhi ≤ j then (acc, best)
    else
      let k := (if j = 0 then 0 else j2len (j - 1)) + 1
      let acc2 := fun j2 => if j2 = j then k else acc j2
      let best2 := if best.2.2 < k then (i + 1 - k, j + 1 - k, k) else best
      flmRow blo bhi i j2len rest acc2 best2

/-- Outer loop of `find_longest_match` over `i in range(alo, ahi)`. -/
def flmRows (a b : List Char) (blo bhi : Nat) :
    List Nat → (Nat → Nat) → Nat × Nat × Nat → Nat × Nat × Nat
  | [], _, best => best
  | i :: rest, j2len, best =>
    let step := flmRow blo bhi i j2len (b2jGet b (a.getD i ' ')) (fun _ => 0) best
    flmRows a b blo bhi rest step.1 step.2

/-- The left extension loop of `find_longest_match` (no junk). -/
def extendLeft (a b : List Char) (alo blo : Nat) :
    Nat → Nat × Nat × Nat → Nat × Nat × Nat
  | 0, best => best
  | fuel + 1, (bi, bj, bs) =>
    if alo < bi && blo < bj && decide (a.getD (bi - 1) ' ' = b.getD (bj - 1) ' ') then
      extendLeft a b alo blo fuel (bi - 1, bj - 1, bs + 1)
    else (bi, bj, bs)

/-- The right extension loop of `find_longest_match` (no junk). -/
def extendRight (a b : List Char) (ahi bhi : Nat) :
    Nat → Nat × Nat × Nat → Nat × Nat × Nat
  | 0, best => best
  | fuel + 1, (bi, bj, bs) =>
    if bi + bs < ahi && bj + bs < bhi &&
        decide (a.getD (bi + bs) ' ' = b.getD (bj + bs) ' ') then
      extendRight a b ahi bhi fuel (bi, bj, bs + 1)
    else (bi, bj, bs)

/-- Model of `SequenceMatcher.find_longest_match` on the region
`a[alo:ahi] × b[blo:bhi]`. -/
def findLongestMatch (a b : List Char) (alo ahi blo bhi : Nat) : Nat × Nat × Nat :=
  let best := flmRows a b blo bhi (List.range' alo (ahi - alo)) (fun _ => 0) (alo, blo, 0)
  let best := extendLeft a b alo blo best.1 best
  extendRight a b ahi bhi bhi best

/-- Total size of the matching blocks of `get_matching_blocks`, computed by
the recursive-partition reading of its work queue (the queue order only
permutes the blocks, so the sum is the same). -/
def matchesSum (a b : List Char) : Nat → Nat → Nat → Nat → Nat → Nat
  | 0, _, _, _, _ => 0
  | fuel + 1, alo, ahi, blo, bhi =>
    let m := findLongestMatch a b alo ahi blo bhi
    let i := m.1
    let j := m.2.1
    let k := m.2.2
    if k = 0 then 0
    else
      k + (if alo < i && blo < j then matchesSum a b fuel alo i blo j else 0) +
        (if i + k < ahi && j + k < bhi then matchesSum a b fuel (i + k) ahi (j + k) bhi
         else 0)

/-- Model of the ratio of `SequenceMatcher(None, a, b)`: `2 * M / T` (and 1.0 when both
strings are empty). -/
def seqRatio (a b : List Char) : ℚ :=
  if a.length + b.length = 0 then 1
  else
    2 * (matchesSum a b (a.length + b.length + 1) 0 a.length 0 b.length : ℚ) /
      (a.length + b.length)

/-- The default `threshold=0.05` of `dom_changed`. -/
def defaultThreshold : ℚ := 1 / 20

/-- Model of `dom_changed(before_html, after_html, threshold)`
(browser.py lines 43-89): clean both documents, short-circuit to `False` on
exact equality of the cleaned strings, report `False` when both are empty,
otherwise compare `1 - similarity` against the threshold. -/
def dom_changed (before after : Forest) (threshold : ℚ) : Bool :=
  let b := clean_dom before
  let a := clean_dom after
  if b = a then false
  else if max b.length a.length = 0 then false
  else decide (threshold < 1 - seqRatio b a)

mutual
/-- The two nodes are identical except possibly in attribute entries
outside the allow-list. -/
def eqModAttrsT : Tree → Tree → Bool
  | .txt s, .txt t => decide (s = t)
  | .el n a c, .el n2 a2 c2 =>
    decide (n = n2) && decide (filterAttrs a = filterAttrs a2) && eqModAttrsF c c2
  | _, _ => false
/-- The two forests are identical except possibly in attribute entries
outside the allow-list. -/
def eqModAttrsF : Forest → Forest → Bool
  | .nil, .nil => true
  | .cons t tl, .cons t2 tl2 => eqModAttrsT t t2 && eqModAttrsF tl tl2
  | _, _ => false
end

/-!
## Re-parsing prettified output (for idempotence of `clean_dom`)

`clean_dom` takes a string: it re-parses its input with
`BeautifulSoup(html, "html.parser")`.  To state idempotence we model the
parser on the language that `prettify` emits: element and text nodes,
double-quoted attributes, and the three entities of the minimal formatter
(`&amp;` `&lt;` `&gt;`, the only ones `prettify` produces).  Text runs are
read up to the next `<` exactly as `html.parser` feeds `handle_data`, so
whitespace between tags becomes whitespace-only text nodes and adjacent
printed lines merge into one text node, as in bs4. -/
/-- Entity decoding done by `html.parser` (`convert_charrefs=True`),
restricted to the three entities the minimal formatter emits. -/
def unescapeMin : List Char → List Char
  | [] => []
  | '&' :: 'a' :: 'm' :: 'p' :: ';' :: rest => '&' :: unescapeMin rest
  | '&' :: 'l' :: 't' :: ';' :: rest => '<' :: unescapeMin rest
  | '&' :: 'g' :: 't' :: ';' :: rest => '>' :: unescapeMin rest
  | '&' :: rest => '&' :: unescapeMin rest
  | c :: rest => c :: unescapeMin rest

/-- Character is not `<` (text scanning predicate). -/
def neLtChar (c : Char) : Bool := decide (c ≠ '<')

/-- Character continues a tag name (stops at space or `>`). -/
def nameScanChar (c : Char) : Bool := decide (c ≠ ' ') && decide (c ≠ '>')

/-- Character is not `=` (attribute-name scanning). -/
def neEqChar (c : Char) : Bool := decide (c ≠ '=')

/-- Character is not `"` (attribute-value scanning). -/
def neQuoteChar (c : Char) : Bool := decide (c ≠ '"')

/-- Parse the attribute list of an open tag, ` name="value"` repeated,
up to and including the closing `>`. -/
def parseAttrs : Nat → List Char → Option (List (List Char × List Char) × List Char)
  | 0, _ => none
  | _ + 1, '>' :: rest => some ([], rest)
  | fuel + 1, ' ' :: rest =>
    let an := rest.takeWhile neEqChar
    match rest.dropWhile neEqChar with
    | '=' :: '"' :: r2 =>
      let av := r2.takeWhile neQuoteChar
      match r2.dropWhile neQuoteChar with
      | '"' :: r3 =>
        match parseAttrs fuel r3 with
        | some (ats, r4) => some ((an, unescapeMin av) :: ats, r4)
        | none => none
      | _ => none
    | _ => none
  | _ + 1, _ => none

/-- Consume a closing tag `</name>`. -/
def parseClose (nm : List Char) : List Char → Option (List Char)
  | '<' :: '/' :: rest =>
    if isPrefixList nm rest then
      match rest.drop nm.length with
      | '>' :: r => some r
      | _ => none
    else none
  | _ => none

/-- Parse a sibling sequence: text runs up to `<`, elements with their
children, stopping (without consuming) at a closing tag or at the end of
input.  Fuel is structural so that the parser evaluates in the kernel. -/
def parseNodes : Nat → List Char → Option (Forest × List Char)
  | 0, _ => none
  | fuel + 1, cs =>
    let raw := cs.takeWhile neLtChar
    let addPre : Forest → Forest :=
      fun f => if raw = [] then f else .cons (.txt (unescapeMin raw)) f
    match cs.dropWhile neLtChar with
    | [] => some (addPre .nil, [])
    | '<' :: '/' :: rest => some (addPre .nil, '<' :: '/' :: rest)
    | '<' :: rest =>
      let nm := rest.takeWhile nameScanChar
      if nm = [] then none
      else
        match parseAttrs (rest.length + 1) (rest.dropWhile nameScanChar) with
        | none => none
        | some (ats, r2) =>
          match parseNodes fuel r2 with
          | none => none
          | some (kids, r3) =>
            match parseClose nm r3 with
            | none => none
            | some r4 =>
              match parseNodes fuel r4 with
              | none => none
              | some (sibs, r5) => some (addPre (.cons (.el nm ats kids) sibs), r5)
    | _ => none

/-- Parse a whole document (the whole input must be consumed). -/
def parseDom (cs : List Char) : Option Forest :=
  match parseNodes (cs.length + 1) cs with
  | some (f, []) => some f
  | _ => none

/-- Model of `clean_dom` on a string: parse, then strip/filter/prettify.  `none`
models inputs outside the sublanguage handled by the parser model. -/
def clean_dom_str (cs : List Char) : Option (List Char) :=
  (parseDom cs).map clean_dom

/-- Tag- and attribute-name characters produced by `html.parser`
(lowercased names). -/
def nameChar (c : Char) : Bool := c.isLower || c.isDigit || c = '-'

/-- A well-formed (parser-producible) tag or attribute name. -/
def wfName (n : List Char) : Bool := decide (n ≠ []) && n.all nameChar

/-- A well-formed attribute entry: parser-producible name, value without
a double quote (bs4 would switch quoting style otherwise). -/
def wfAttrEntry (kv : List Char × List Char) : Bool :=
  wfName kv.1 && kv.2.all neQuoteChar

mutual
/-- Well-formedness of a parsed node (the shape `html.parser` outputs). -/
def wfT : Tree → Bool
  | .txt _ => true
  | .el n a c => wfName n && a.all wfAttrEntry && wfF c
/-- Well-formedness of a parsed forest. -/
def wfF : Forest → Bool
  | .nil => true
  | .cons t tl => wfT t && wfF tl
end

mutual
/-- A cleaned node: well-formed, not a banned tag, all attributes on the
allow-list (the shape `cleanForest` outputs on well-formed input). -/
def cleanOkT : Tree → Bool
  | .txt _ => true
  | .el n a c =>
    wfName n && decide (n ∉ bannedTags) &&
      a.all (fun kv => wfAttrEntry kv && decide (kv.1 ∈ attrAllowlist)) && cleanOkF c
/-- A cleaned forest. -/
def cleanOkF : Forest → Bool
  | .nil => true
  | .cons t tl => cleanOkT t && cleanOkF tl
end

mutual
/-- Node count, the induction measure for the round-trip proof. -/
def countT : Tree → Nat
  | .txt _ => 1
  | .el _ _ c => 1 + countF c
/-- Node count of a forest. -/
def countF : Forest → Nat
  | .nil => 0
  | .cons t tl => countT t + countF tl
end

/-- What a consumed text prefix `P` reprints to. -/
def prettyRaw (d : Nat) (P : List Char) : List Char :=
  if P = [] then [] else prettyT d (.txt (unescapeMin P))

/-- The parser round-trip property of a cleaned forest `u`: prefixed by
any whitespace `lead`, suffixed by whitespace `sp` and then a closing tag
or the end of input, `parseNodes` consumes exactly the prettified text of
`u` (plus the surrounding whitespace) and the parsed forest re-cleans and
re-prettifies to the same string. -/
def ParseRT (u : Forest) : Prop :=
  ∀ (d : Nat) (lead sp rtail : List Char) (fuel : Nat),
    (∀ c ∈ lead, isSpaceChar c = true) →
    (∀ c ∈ sp, isSpaceChar c = true) →
    (rtail = [] ∨ ∃ r, rtail = '<' :: '/' :: r) →
    (lead ++ (prettyF d u ++ (sp ++ rtail))).length < fuel →
    ∃ v : Forest,
      parseNodes fuel (lead ++ (prettyF d u ++ (sp ++ rtail))) = some (v, rtail) ∧
      prettyF d (cleanForest v) = prettyF d u

/-- Totality of the lexicographic order, as a term for the sort instances. -/
def lexLe_total : ∀ (a b : List Char), lexLe a b = true ∨ lexLe b a = true
  | [], _ => Or.inl rfl
  | _ :: _, [] => Or.inr rfl
  | a :: as, b :: bs => by
    by_cases hab : a = b
    · subst hab
      rcases lexLe_total as bs with h | h
      · exact Or.inl (by simp [lexLe, h])
      · exact Or.inr (by simp [lexLe, h])
    · rcases lt_or_gt_of_ne hab with h | h
      · exact Or.inl (by simp [lexLe, hab, h])
      · exact Or.inr (by simp [lexLe, Ne.symm hab, h])

def lexLe_trans : ∀ {a b c : List Char},
    lexLe a b = true → lexLe b c = true → lexLe a c = true
  | [], _, _, _, _ => rfl
  | a :: as, b :: bs, c :: cs, h1, h2 => by
    by_cases hab : a = b <;> by_cases hbc : b = c
    · subst hab; subst hbc
      simp only [lexLe, if_pos rfl] at h1 h2 ⊢
      exact lexLe_trans h1 h2
    · subst hab
      simp only [lexLe, if_neg hbc, decide_eq_true_eq] at h2 ⊢
      exact h2
    · subst hbc
      simp only [lexLe, if_neg hab, decide_eq_true_eq] at h1 ⊢
      exact h1
    · simp only [lexLe, if_neg hab, decide_eq_true_eq] at h1
      simp only [lexLe, if_neg hbc, decide_eq_true_eq] at h2
      have hac : a < c := lt_trans h1 h2
      simp only [lexLe, if_neg (ne_of_lt hac), decide_eq_true_eq]
      exact hac
  | _ :: _, [], _, h1, _ => by simp [lexLe] at h1
  | _ :: _, _ :: _, [], _, h2 => by simp [lexLe] at h2

instance : IsTotal (List Char × List Char) attrLe :=
  ⟨fun a b => lexLe_total a.1 b.1⟩

instance : IsTrans (List Char × List Char) attrLe :=
  ⟨fun _ _ _ h1 h2 => lexLe_trans h1 h2⟩

/-- A concrete parsed document used as the idempotence witness:
`<div id="x" class="a b">  Hi & <you> <script>x()</script><p>line1\n line2</p></div>`. -/
def exampleDoc : Forest :=
  .cons (.el "div".data [("id".data, "x".data), ("class".data, "a b".data)]
    (.cons (.txt "  Hi & ".data)
      (.cons (.el "script".data [] (.cons (.txt "x()".data) .nil))
        (.cons (.el "p".data [] (.cons (.txt "line1\n line2".data)
          (.cons (.txt "tail".data) .nil))) .nil)))) .nil

/-- Helper: the reactive loop preserves the invariant that the list of
capture indices is exactly `0, 1, ..., step_index - 1`. -/
theorem runReactiveLoop_captures_range (maxSteps : Nat) (handlers : List String)
    (dispatchOk : Nat → Bool) :
    ∀ (outs : List PlannerOut) (st : LoopState),
      st.captures = List.range st.stepIndex →
      (runReactiveLoop maxSteps handlers dispatchOk outs st).1.captures =
        List.range (runReactiveLoop maxSteps handlers dispatchOk outs st).1.stepIndex := by
  intro outs
  induction outs with
  | nil =>
    intro st h
    rw [runReactiveLoop.eq_def]
    by_cases hms : maxSteps < st.stepIndex <;> simp [hms, h]
  | cons o rest ih =>
    intro st h
    rw [runReactiveLoop.eq_def]
    by_cases hms : maxSteps < st.stepIndex
    · simp [hms, h]
    · rcases o with _ | r
      · simp [hms, h]
      · rcases r with _ | j
        · simp [hms, h]
        · by_cases hne : isNonemptyObj j
          · by_cases hrep : j ∈ lastN 3 st.history
            · by_cases hcnt : 2 ≤ st.repeatedCount + 1
              · simp [hms, hne, hrep, hcnt, h]
              · simpa [hms, hne, hrep, hcnt] using
                  ih { st with repeatedCount := st.repeatedCount + 1 } h
            · rcases hfk : firstKey j with _ | ⟨nm, pr⟩
              · simp [hms, hne, hrep, hfk, h]
              · by_cases hp : isObj pr
                · by_cases hh : nm ∈ handlers
                  · have h' :
                        (({ st with repeatedCount := 0 } : LoopState).captures ++
                            [({ st with repeatedCount := 0 } : LoopState).stepIndex]) =
                          List.range (st.stepIndex + 1) := by
                      simp [h, List.range_succ]
                    simpa [hms, hne, hrep, hfk, hp, hh] using ih _ (by simpa using h')
                  · simp [hms, hne, hrep, hfk, hp, hh, h]
                · simp [hms, hne, hrep, hfk, hp, h]
          · simp [hms, hne, h]

/-- Helper: the batch loop keeps its capture list sorted, bounded by the
step counter, and with an unchanged head. -/
theorem runBatchLoop_captures_sorted (handlers : List String) (dispatchOk : Nat → Bool) :
    ∀ (steps : List Json) (st : BatchState),
      st.captures.Sorted (· < ·) → (∀ c ∈ st.captures, c < st.stepIndex) →
      st.captures ≠ [] →
      (runBatchLoop handlers dispatchOk steps st).captures.Sorted (· < ·) ∧
      (∀ c ∈ (runBatchLoop handlers dispatchOk steps st).captures,
          c < (runBatchLoop handlers dispatchOk steps st).stepIndex) ∧
      (runBatchLoop handlers dispatchOk steps st).captures.head? = st.captures.head? := by
  intro steps
  induction steps with
  | nil => intro st hs hb hn; exact ⟨hs, hb, rfl⟩
  | cons s rest ih =>
    intro st hs hb hn
    rw [runBatchLoop]
    have hbound : ∀ c ∈ ({ st with stepIndex := st.stepIndex + 1 } : BatchState).captures,
        c < ({ st with stepIndex := st.stepIndex + 1 } : BatchState).stepIndex :=
      fun c hc => Nat.lt_succ_of_lt (hb c hc)
    have hskip := ih { st with stepIndex := st.stepIndex + 1 } hs hbound hn
    by_cases hne : isNonemptyObj s
    · rcases hfk : firstKey s with _ | ⟨nm, pr⟩
      · simpa [hne, hfk] using hskip
      · by_cases hp : isObj pr
        · by_cases hh : nm ∈ handlers
          · have hs' : (st.captures ++ [st.stepIndex]).Sorted (· < ·) :=
              List.pairwise_append.mpr
                ⟨hs, List.pairwise_singleton _ _, by simpa using hb⟩
            have hb' : ∀ c ∈ st.captures ++ [st.stepIndex], c < st.stepIndex + 1 := by
              intro c hc
              rcases List.mem_append.mp hc with h1 | h1
              · exact Nat.lt_succ_of_lt (hb c h1)
              · simp at h1; omega
            have hn' : st.captures ++ [st.stepIndex] ≠ [] := by simp
            have hhead : (st.captures ++ [st.stepIndex]).head? = st.captures.head? := by
              cases hcap : st.captures with
              | nil => exact absurd hcap hn
              | cons a l => simp [hcap]
            have hdis := ih ({ st with
                stepIndex := st.stepIndex + 1
                dispatchCount := st.dispatchCount + 1
                captures := st.captures ++ [st.stepIndex] }) hs' hb' hn'
            simp only [hne, hfk, hp, hh, if_true, if_pos]
            refine ⟨hdis.1, hdis.2.1, ?_⟩
            rw [hdis.2.2]
            exact hhead
          · simpa [hne, hfk, hp, hh] using hskip
        · simpa [hne, hfk, hp] using hskip
    · simpa [hne] using hskip

/-- C1: Repetition guard of the reactive loop.  (i) A proposal equal to one
of the last 3 history entries with the counter at 0 is discarded: the
counter becomes 1 and the loop replans with step index, history and
captures untouched.  (ii) A repeated proposal with the counter already at 1
terminates the run (counter reaches 2).  (iii) Hence a planner proposing
the same well-formed action three times in a row makes the run end with the
repetition-limit abort after the second detected repetition, with exactly
one dispatch of that action and exactly that action recorded in history. -/
theorem repetition_guard_behavior :
    (∀ (maxSteps : Nat) (handlers : List String) (dispatchOk : Nat → Bool)
        (st : LoopState) (j : Json) (rest : List PlannerOut),
        ¬ maxSteps < st.stepIndex → isNonemptyObj j = true →
        j ∈ lastN 3 st.history → st.repeatedCount = 0 →
        runReactiveLoop maxSteps handlers dispatchOk (.ret (some j) :: rest) st =
          runReactiveLoop maxSteps handlers dispatchOk rest
            { st with repeatedCount := 1 }) ∧
    (∀ (maxSteps : Nat) (handlers : List String) (dispatchOk : Nat → Bool)
        (st : LoopState) (j : Json) (rest : List PlannerOut),
        ¬ maxSteps < st.stepIndex → isNonemptyObj j = true →
        j ∈ lastN 3 st.history → 1 ≤ st.repeatedCount →
        runReactiveLoop maxSteps handlers dispatchOk (.ret (some j) :: rest) st =
          ({ st with repeatedCount := st.repeatedCount + 1 }, .repetitionLimit)) ∧
    (∀ (maxSteps : Nat) (handlers : List String) (dispatchOk : Nat → Bool)
        (a : Json) (name : String) (params : Json) (rest : List PlannerOut),
        2 ≤ maxSteps → isNonemptyObj a = true → firstKey a = some (name, params) →
        isObj params = true → name ∈ handlers → dispatchOk 0 = true →
        runReactiveLoop maxSteps handlers dispatchOk
            (.ret (some a) :: .ret (some a) :: .ret (some a) :: rest) initLoopState =
          ({ stepIndex := 2, history := [a], repeatedCount := 2, captures := [0, 1],
             dispatchCount := 1 }, .repetitionLimit)) := by
  refine ⟨?_, ?_, ?_⟩
  · intro maxSteps handlers dispatchOk st j rest hms hne hrep hcnt
    rw [runReactiveLoop.eq_def]
    have h2 : ¬ 2 ≤ st.repeatedCount + 1 := by omega
    simp [hms, hne, hrep, h2, hcnt]
  · intro maxSteps handlers dispatchOk st j rest hms hne hrep hcnt
    rw [runReactiveLoop.eq_def]
    have h2 : 2 ≤ st.repeatedCount + 1 := by omega
    simp [hms, hne, hrep, h2]
  · intro maxSteps handlers dispatchOk a name params rest hms hne hfk hp hh hd
    have h1 : ¬ maxSteps < 1 := by omega
    have h2 : ¬ maxSteps < 2 := by omega
    rw [runReactiveLoop.eq_def]
    simp only [initLoopState, h1, if_false, hne, lastN]
    simp only [List.drop_nil, List.not_mem_nil, if_false, hfk, hp, hh, if_true, hd]
    rw [runReactiveLoop.eq_def]
    simp only [h2, if_false, hne, lastN]
    norm_num [hd]
    rw [runReactiveLoop.eq_def]
    simp [h2, hne, lastN]

/-- Witness for C1 at a concrete planner transcript. -/
theorem repetition_guard_behavior_witness :
    runReactiveLoop 20 defaultHandlers (fun _ => true)
        (.ret (some navExample) :: .ret (some navExample) :: .ret (some navExample) :: [])
        initLoopState =
      ({ stepIndex := 2, history := [navExample], repeatedCount := 2, captures := [0, 1],
         dispatchCount := 1 }, .repetitionLimit) :=
  repetition_guard_behavior.2.2 20 defaultHandlers (fun _ => true) navExample "navigate"
    (.obj (.cons "url" (.str "https://a") .nil)) [] (by omega) (by decide) (by decide)
    (by decide) (by decide) rfl

/-- C2 (amended): in both entry points the capture indices are strictly
increasing, start at 0 and have no repeats; in `run_reactive` they are in
addition gap-free (`0, 1, ..., step_index - 1`).  In the batch `run`,
however, a skipped step leaves a gap (see the counterexample). -/
theorem capture_indices_monotone :
    (∀ (maxSteps : Nat) (handlers : List String) (dispatchOk : Nat → Bool)
        (outs : List PlannerOut),
        (runReactiveLoop maxSteps handlers dispatchOk outs initLoopState).1.captures =
          List.range
            ((runReactiveLoop maxSteps handlers dispatchOk outs initLoopState).1.stepIndex)) ∧
    (∀ (handlers : List String) (dispatchOk : Nat → Bool) (steps : List Json),
        (runBatchLoop handlers dispatchOk steps initBatchState).captures.Sorted (· < ·) ∧
        (runBatchLoop handlers dispatchOk steps initBatchState).captures.head? = some 0) := by
  constructor
  · intro maxSteps handlers dispatchOk outs
    exact runReactiveLoop_captures_range maxSteps handlers dispatchOk outs initLoopState
      (by simp [initLoopState, List.range_succ])
  · intro handlers dispatchOk steps
    have h := runBatchLoop_captures_sorted handlers dispatchOk steps initBatchState
      (by simp [initBatchState]) (by simp [initBatchState]) (by simp [initBatchState])
    exact ⟨h.1, by rw [h.2.2]; rfl⟩

/-- Counterexample to C2 as stated: in the batch entry point, an invalid
first step is skipped while the step counter still advances, so the run
captures indices 0 and 2 and index 1 is missing — the sequence has a gap. -/
theorem capture_indices_gap_counterexample :
    (runBatchLoop defaultHandlers (fun _ => true) [Json.num 0, navExample]
        initBatchState).captures = [0, 2] ∧
    1 ∉ (runBatchLoop defaultHandlers (fun _ => true) [Json.num 0, navExample]
        initBatchState).captures := by decide

/-- C4 (amended): after an attempted dispatch of a fresh well-formed
planner proposal the loop always advances to the capture step and
continues (step index incremented, the step index captured, the
repeated-step counter reset), but the action is appended to
`step_history` only when the dispatch succeeded; a failed dispatch leaves
history unchanged (and no outcome tag of any kind is recorded). -/
theorem history_append_on_dispatch (maxSteps : Nat) (handlers : List String)
    (dispatchOk : Nat → Bool) (st : LoopState) (j : Json) (name : String) (params : Json)
    (rest : List PlannerOut) (hms : ¬ maxSteps < st.stepIndex)
    (hne : isNonemptyObj j = true) (hfresh : j ∉ lastN 3 st.history)
    (hfk : firstKey j = some (name, params)) (hp : isObj params = true)
    (hh : name ∈ handlers) :
    runReactiveLoop maxSteps handlers dispatchOk (.ret (some j) :: rest) st =
      runReactiveLoop maxSteps handlers dispatchOk rest
        { stepIndex := st.stepIndex + 1
          history := if dispatchOk st.dispatchCount then st.history ++ [j] else st.history
          repeatedCount := 0
          captures := st.captures ++ [st.stepIndex]
          dispatchCount := st.dispatchCount + 1 } := by
  rw [runReactiveLoop.eq_def]
  simp [hms, hne, hfresh, hfk, hp, hh]

/-- Witness for C4: a concrete failing dispatch still advances and
captures, with history left empty. -/
theorem history_append_on_dispatch_witness :
    runReactiveLoop 20 defaultHandlers (fun _ => false) [.ret (some navExample)]
        initLoopState =
      runReactiveLoop 20 defaultHandlers (fun _ => false) []
        { stepIndex := 2, history := [], repeatedCount := 0, captures := [0, 1],
          dispatchCount := 1 } := by
  have h := history_append_on_dispatch 20 defaultHandlers (fun _ => false) initLoopState
    navExample "navigate" (.obj (.cons "url" (.str "https://a") .nil)) []
    (by decide) (by decide) (by decide) (by decide) (by decide) (by decide)
  simpa [initLoopState] using h

/-- Counterexample to C4 as stated: the planner proposes one action, its
dispatch fails, and the run then completes; a dispatch was attempted
(`dispatchCount = 1`, the step index was captured) yet history is empty —
no record of the attempted action or its failure outcome was appended. -/
theorem history_append_on_dispatch_counterexample :
    runReactiveLoop 20 defaultHandlers (fun _ => false)
        [.ret (some navExample), .ret none] initLoopState =
      ({ stepIndex := 2, history := [], repeatedCount := 0, captures := [0, 1],
         dispatchCount := 1 }, .completed) := by decide

/-- C6 (amended): a planner response object with no "step" key makes
`plan_next_step` return `None`, which the reactive loop takes as task
completion (it does NOT abort); a response whose "step" is a truthy
non-dict without a "done" member is returned as-is and then aborts the
loop as an invalid step format. -/
theorem malformed_planner_output_behavior (fields fields2 : JsonFields) (step : Json)
    (hnone : lookupField fields "step" = none)
    (hsome : lookupField fields2 "step" = some step) (ht : truthy step = true)
    (hdone : containsDone step = some false) (hno : isNonemptyObj step = false) :
    (planNextStepOfResponse (.obj fields) = .ret none ∧
      runReactiveLoop 20 defaultHandlers (fun _ => true)
          [planNextStepOfResponse (.obj fields)] initLoopState =
        (initLoopState, .completed)) ∧
    (planNextStepOfResponse (.obj fields2) = .ret (some step) ∧
      runReactiveLoop 20 defaultHandlers (fun _ => true)
          [planNextStepOfResponse (.obj fields2)] initLoopState =
        (initLoopState, .invalidStepFormat)) := by
  have h1 : planNextStepOfResponse (.obj fields) = .ret none := by
    simp [planNextStepOfResponse, hnone]
  have h2 : planNextStepOfResponse (.obj fields2) = .ret (some step) := by
    simp [planNextStepOfResponse, hsome, ht, hdone]
  refine ⟨⟨h1, ?_⟩, ⟨h2, ?_⟩⟩
  · rw [h1, runReactiveLoop.eq_def]
    simp [initLoopState]
  · rw [h2, runReactiveLoop.eq_def]
    simp [initLoopState, hno]

/-- Witness for C6 at concrete planner responses: `{"foo": "bar"}` (no
"step" key) is treated as completion; `{"step": "click"}` (truthy non-dict
step) aborts. -/
theorem malformed_planner_output_behavior_witness :
    (planNextStepOfResponse (.obj (.cons "foo" (.str "bar") .nil)) = .ret none ∧
      runReactiveLoop 20 defaultHandlers (fun _ => true)
          [planNextStepOfResponse (.obj (.cons "foo" (.str "bar") .nil))] initLoopState =
        (initLoopState, .completed)) ∧
    (planNextStepOfResponse (.obj (.cons "step" (.str "click") .nil)) =
        .ret (some (.str "click")) ∧
      runReactiveLoop 20 defaultHandlers (fun _ => true)
          [planNextStepOfResponse (.obj (.cons "step" (.str "click") .nil))] initLoopState =
        (initLoopState, .invalidStepFormat)) :=
  malformed_planner_output_behavior (.cons "foo" (.str "bar") .nil)
    (.cons "step" (.str "click") .nil) (.str "click") (by decide) (by decide) (by decide)
    (by decide) (by decide)

/-- Counterexample to C6 as stated: the malformed planner response
`{"foo": "bar"}` — not a well-formed action and not a completion signal —
is interpreted by the run as task completion (reason `completed`), not as
an abort. -/
theorem malformed_planner_output_counterexample :
    planNextStepOfResponse (.obj (.cons "foo" (.str "bar") .nil)) = .ret none ∧
    runReactiveLoop 20 defaultHandlers (fun _ => true)
        [planNextStepOfResponse (.obj (.cons "foo" (.str "bar") .nil))] initLoopState =
      (initLoopState, .completed) := by decide

/-- C8: with `max_steps = 3` and a planner that returns three fresh
well-formed actions (never a completion signal), the reactive run performs
exactly 3 dispatch-and-capture cycles, terminates with the max-steps
outcome, and the captures are exactly the indices 0, 1, 2, 3. -/
theorem max_steps_three_scenario (handlers : List String) (dispatchOk : Nat → Bool)
    (j1 j2 j3 : Json) (n1 n2 n3 : String) (p1 p2 p3 : Json) (rest : List PlannerOut)
    (hd : ∀ n, dispatchOk n = true)
    (h1 : isNonemptyObj j1 = true) (h2 : isNonemptyObj j2 = true)
    (h3 : isNonemptyObj j3 = true)
    (hfk1 : firstKey j1 = some (n1, p1)) (hfk2 : firstKey j2 = some (n2, p2))
    (hfk3 : firstKey j3 = some (n3, p3))
    (hp1 : isObj p1 = true) (hp2 : isObj p2 = true) (hp3 : isObj p3 = true)
    (hh1 : n1 ∈ handlers) (hh2 : n2 ∈ handlers) (hh3 : n3 ∈ handlers)
    (d21 : j2 ≠ j1) (d31 : j3 ≠ j1) (d32 : j3 ≠ j2) :
    runReactiveLoop 3 handlers dispatchOk
        (.ret (some j1) :: .ret (some j2) :: .ret (some j3) :: rest) initLoopState =
      ({ stepIndex := 4, history := [j1, j2, j3], repeatedCount := 0,
         captures := [0, 1, 2, 3], dispatchCount := 3 }, .maxStepsReached) := by
  rw [runReactiveLoop.eq_def]
  simp only [initLoopState, lastN]
  norm_num [h1, hfk1, hp1, hh1, hd 0]
  rw [runReactiveLoop.eq_def]
  simp only [lastN]
  norm_num [h2, hfk2, hp2, hh2, hd 1, d21]
  rw [runReactiveLoop.eq_def]
  simp only [lastN]
  norm_num [h3, hfk3, hp3, hh3, hd 2, d31, d32]
  rw [runReactiveLoop.eq_def]
  norm_num

/-- Witness for C8 at a concrete planner transcript of three distinct
actions. -/
theorem max_steps_three_scenario_witness :
    runReactiveLoop 3 defaultHandlers (fun _ => true)
        (.ret (some navExample) :: .ret (some clickExample) :: .ret (some waitExample) :: [])
        initLoopState =
      ({ stepIndex := 4, history := [navExample, clickExample, waitExample],
         repeatedCount := 0, captures := [0, 1, 2, 3], dispatchCount := 3 },
        .maxStepsReached) :=
  max_steps_three_scenario defaultHandlers (fun _ => true) navExample clickExample
    waitExample "navigate" "click" "wait_for"
    (.obj (.cons "url" (.str "https://a") .nil))
    (.obj (.cons "selector" (.str "button.contact") .nil))
    (.obj (.cons "selector" (.str "body") .nil)) []
    (fun _ => rfl) (by decide) (by decide) (by decide) (by decide) (by decide) (by decide)
    (by decide) (by decide) (by decide) (by decide) (by decide) (by decide)
    (by decide) (by decide) (by decide)

/-- C3 (amended): `_handle_type` rejects only a missing `value` key; an
empty-string `value` passes validation and the fill IS dispatched — the
target input is filled with the empty string. -/
theorem type_empty_value_behavior (pg : PageOracle) (params : Json) (sel : String)
    (hnov : jsonGet params "value" = none)
    (hsel : pg.selectorFound (.str sel) = true) :
    handleType pg params = .error "type action missing value parameter" ∧
    handleType pg
        (.obj (.cons "selector" (.str sel) (.cons "value" (.str "") .nil))) =
      .ok [.fillSelector (.str sel) (.str ""), .pauseMs 300] := by
  constructor
  · simp [handleType, hnov]
  · simp [handleType, jsonGet, lookupField, hsel]

/-- Witness for C3: the exact Scenario-3 action, `Type` with
`selector="input#email"` and `value=""`. -/
theorem type_empty_value_behavior_witness :
    handleType happyPage (.obj .nil) = .error "type action missing value parameter" ∧
    handleType happyPage
        (.obj (.cons "selector" (.str "input#email") (.cons "value" (.str "") .nil))) =
      .ok [.fillSelector (.str "input#email") (.str ""), .pauseMs 300] :=
  type_empty_value_behavior happyPage (.obj .nil) "input#email" (by decide) rfl

/-- Counterexample to C3 as stated: a `Type` action with
`selector="input#email"` and empty `value` does not fail with a malformed
action error — the fill of the target input is performed with `""`. -/
theorem type_empty_value_counterexample :
    handleType happyPage
        (.obj (.cons "selector" (.str "input#email") (.cons "value" (.str "") .nil))) =
      .ok [.fillSelector (.str "input#email") (.str ""), .pauseMs 300] := rfl

/-- C5 (amended): when the post-navigation network-idle settle wait times
out, the timeout is NOT swallowed: `_handle_navigate` raises and the
Navigate action fails (the run-level loops then record the failure and
continue — see `history_append_on_dispatch`). -/
theorem navigate_settle_timeout_behavior (pg : PageOracle) (params url : Json)
    (hurl : jsonGet params "url" = some url) (hgoto : pg.gotoOk url = true)
    (hidle : pg.networkIdleWithin 5000 = false) :
    handleNavigate pg params = .error "Timeout 5000ms exceeded waiting for networkidle" := by
  simp [handleNavigate, hurl, hgoto, hidle]

/-- Witness for C5 at a concrete page whose network never goes idle. -/
theorem navigate_settle_timeout_behavior_witness :
    handleNavigate { happyPage with networkIdleWithin := fun _ => false }
        (.obj (.cons "url" (.str "https://a") .nil)) =
      .error "Timeout 5000ms exceeded waiting for networkidle" :=
  navigate_settle_timeout_behavior _ _ (.str "https://a") rfl rfl rfl

/-- Counterexample to C5 as stated: a Navigate whose settle wait times out
is reported as a failure, not as a success. -/
theorem navigate_settle_timeout_counterexample :
    handleNavigate { happyPage with networkIdleWithin := fun _ => false }
        (.obj (.cons "url" (.str "https://a") .nil)) ≠
      .ok [.goto (.str "https://a"), .waitNetworkIdle 5000] := fun h => Except.noConfusion h

/-- C9 (amended): an action with zero locator fields fails with the
missing-parameter `ValueError` before any dispatch (`_handle_click` and
`_handle_wait_for` alike), but conflicting locator fields are NOT
rejected: when both `text` and `selector` are supplied, `_handle_click`
silently prefers the `text` locator and dispatches normally. -/
theorem locator_validation_behavior (pg : PageOracle) (params : Json)
    (t sel : Json) (rest : JsonFields)
    (hnt : jsonGet params "text" = none) (hns : jsonGet params "selector" = none) :
    handleClick pg params = .error "click action missing text or selector parameter" ∧
    handleWaitFor pg params = .error "wait_for action missing text or selector parameter" ∧
    handleClick pg (.obj (.cons "text" t (.cons "selector" sel rest))) =
      handleClick pg (.obj (.cons "text" t .nil)) := by
  refine ⟨?_, ?_, ?_⟩
  · simp [handleClick, hnt, hns]
  · simp [handleWaitFor, hnt, hns]
  · simp [handleClick, jsonGet, lookupField]

/-- Witness for C9: a click with no locator fails; a click with both
`text="Contact Sales"` and `selector="#x"` dispatches via the text
locator. -/
theorem locator_validation_behavior_witness :
    (handleClick happyPage (.obj .nil) =
        .error "click action missing text or selector parameter") ∧
    (handleWaitFor happyPage (.obj .nil) =
        .error "wait_for action missing text or selector parameter") ∧
    handleClick happyPage
        (.obj (.cons "text" (.str "Contact Sales")
          (.cons "selector" (.str "#x") .nil))) =
      handleClick happyPage (.obj (.cons "text" (.str "Contact Sales") .nil)) :=
  locator_validation_behavior happyPage (.obj .nil) (.str "Contact Sales") (.str "#x")
    .nil (by decide) (by decide)

/-- Counterexample to C9 as stated: an action with two conflicting locator
fields (`text` and `selector` both populated) does not fail — it is
dispatched with the `text` locator silently chosen. -/
theorem locator_validation_counterexample :
    handleClick happyPage
        (.obj (.cons "text" (.str "Contact Sales")
          (.cons "selector" (.str "#x") .nil))) =
      .ok [.clickText (.str "Contact Sales"), .pauseMs 500] := rfl

theorem cleanForest_nil : cleanForest .nil = .nil := rfl

theorem cleanForest_cons_txt (s : List Char) (tl : Forest) :
    cleanForest (.cons (.txt s) tl) = .cons (.txt s) (cleanForest tl) := by
  simp [cleanForest, stripTagsF, stripTagsT, cleanAttrsF, cleanAttrsT]

theorem cleanForest_cons_el_banned {n : List Char} (a : List (List Char × List Char))
    (c : Forest) (tl : Forest) (h : n ∈ bannedTags) :
    cleanForest (.cons (.el n a c) tl) = cleanForest tl := by
  simp [cleanForest, stripTagsF, stripTagsT, h]

theorem cleanForest_cons_el {n : List Char} (a : List (List Char × List Char))
    (c : Forest) (tl : Forest) (h : n ∉ bannedTags) :
    cleanForest (.cons (.el n a c) tl) =
      .cons (.el n (filterAttrs a) (cleanForest c)) (cleanForest tl) := by
  simp [cleanForest, stripTagsF, stripTagsT, h, cleanAttrsF, cleanAttrsT]

/-- Helper for C7: forests that agree outside the attribute allow-list
clean to the same forest. -/
theorem cleanForest_congr : ∀ (a b : Forest), eqModAttrsF a b = true →
    cleanForest a = cleanForest b
  | .nil, .nil, _ => rfl
  | .nil, .cons _ _, h => by simp [eqModAttrsF] at h
  | .cons _ _, .nil, h => by simp [eqModAttrsF] at h
  | .cons (.txt s) tl, .cons (.txt t) tl2, h => by
    simp only [eqModAttrsF, eqModAttrsT, Bool.and_eq_true, decide_eq_true_eq] at h
    rw [cleanForest_cons_txt, cleanForest_cons_txt, h.1,
      cleanForest_congr tl tl2 h.2]
  | .cons (.txt _) _, .cons (.el _ _ _) _, h => by
    simp [eqModAttrsF, eqModAttrsT] at h
  | .cons (.el _ _ _) _, .cons (.txt _) _, h => by
    simp [eqModAttrsF, eqModAttrsT] at h
  | .cons (.el n a c) tl, .cons (.el n2 a2 c2) tl2, h => by
    simp only [eqModAttrsF, eqModAttrsT, Bool.and_eq_true, decide_eq_true_eq] at h
    obtain ⟨⟨⟨hn, hattr⟩, hc⟩, hrest⟩ := h
    subst hn
    by_cases hb : n ∈ bannedTags
    · rw [cleanForest_cons_el_banned a c tl hb, cleanForest_cons_el_banned a2 c2 tl2 hb,
        cleanForest_congr tl tl2 hrest]
    · rw [cleanForest_cons_el a c tl hb, cleanForest_cons_el a2 c2 tl2 hb, hattr,
        cleanForest_congr c c2 hc, cleanForest_congr tl tl2 hrest]

/-- C7: two parsed documents that differ only in attributes outside the
allow-list `{class, type, role, aria-label}`, or only inside stripped
elements (`script`/`style`/`meta`/`noscript` subtrees), normalise to the
same string, so `dom_changed` reports no change (for any threshold, in
particular the default). -/
theorem comparator_ignores_filtered_noise (a b : Forest) (threshold : ℚ)
    (h : eqModAttrsF a b = true ∨ stripTagsF a = stripTagsF b) :
    dom_changed a b threshold = false := by
  have hc : clean_dom a = clean_dom b := by
    rcases h with h | h
    · rw [clean_dom, clean_dom, cleanForest_congr a b h]
    · rw [clean_dom, clean_dom, cleanForest, cleanForest, h]
  simp [dom_changed, hc]

/-- Witness for C7: `<div id="x"><p>Hi</p></div>` against
`<div data-t="9"><p>Hi</p></div>` (the differing attributes are outside
the allow-list), and a document with an extra `<script>` subtree. -/
theorem comparator_ignores_filtered_noise_witness :
    dom_changed
        (.cons (.el "div".data [("id".data, "x".data)]
          (.cons (.el "p".data [] (.cons (.txt "Hi".data) .nil)) .nil)) .nil)
        (.cons (.el "div".data [("data-t".data, "9".data)]
          (.cons (.el "p".data [] (.cons (.txt "Hi".data) .nil)) .nil)) .nil)
        defaultThreshold = false ∧
    dom_changed
        (.cons (.el "div".data [] (.cons (.el "script".data [] (.cons (.txt "x()".data) .nil))
          .nil)) .nil)
        (.cons (.el "div".data [] .nil) .nil)
        defaultThreshold = false :=
  ⟨comparator_ignores_filtered_noise _ _ _ (Or.inl (by decide)),
    comparator_ignores_filtered_noise _ _ _ (Or.inr (by decide))⟩

/-! ### Character and list utility lemmas for the round-trip proof -/
theorem takeWhile_append_all {p : Char → Bool} :
    ∀ {xs : List Char} (ys : List Char), (∀ c ∈ xs, p c = true) →
      (xs ++ ys).takeWhile p = xs ++ ys.takeWhile p
  | [], ys, _ => rfl
  | x :: xs, ys, h => by
    rw [List.cons_append, List.takeWhile_cons_of_pos (h x (by simp)), List.cons_append,
      takeWhile_append_all ys (fun c hc => h c (by simp [hc]))]

theorem dropWhile_append_all {p : Char → Bool} :
    ∀ {xs : List Char} (ys : List Char), (∀ c ∈ xs, p c = true) →
      (xs ++ ys).dropWhile p = ys.dropWhile p
  | [], ys, _ => rfl
  | x :: xs, ys, h => by
    rw [List.cons_append, List.dropWhile_cons_of_pos (h x (by simp)),
      dropWhile_append_all ys (fun c hc => h c (by simp [hc]))]

theorem dropWhile_append_of_ne_nil {p : Char → Bool} :
    ∀ {xs : List Char} (ys : List Char), xs.dropWhile p ≠ [] →
      (xs ++ ys).dropWhile p = xs.dropWhile p ++ ys
  | [], ys, h => absurd rfl h
  | x :: xs, ys, h => by
    by_cases hp : p x = true
    · rw [List.dropWhile_cons_of_pos hp] at h
      rw [List.cons_append, List.dropWhile_cons_of_pos hp,
        dropWhile_append_of_ne_nil ys h, List.dropWhile_cons_of_pos hp]
    · rw [List.cons_append, List.dropWhile_cons_of_neg hp, List.dropWhile_cons_of_neg hp,
        List.cons_append]

theorem dropWhile_head_false {p : Char → Bool} :
    ∀ {l : List Char} {c : Char} {t : List Char}, l.dropWhile p = c :: t → p c = false
  | [], _, _, h => by simp at h
  | x :: xs, c, t, h => by
    by_cases hp : p x = true
    · rw [List.dropWhile_cons_of_pos hp] at h
      exact dropWhile_head_false h
    · rw [List.dropWhile_cons_of_neg hp] at h
      cases h
      exact Bool.not_eq_true _ ▸ eq_false_of_ne_true hp

theorem mem_dropWhile {p : Char → Bool} {x : Char} :
    ∀ {l : List Char}, x ∈ l.dropWhile p → x ∈ l
  | [], h => by simp at h
  | c :: t, h => by
    by_cases hp : p c = true
    · rw [List.dropWhile_cons_of_pos hp] at h
      exact List.mem_cons_of_mem _ (mem_dropWhile h)
    · rwa [List.dropWhile_cons_of_neg hp] at h

theorem isSpaceChar_cases {c : Char} (h : isSpaceChar c = true) :
    c = ' ' ∨ c = '\n' ∨ c = '\t' ∨ c = '\r' ∨ c = '\x0b' ∨ c = '\x0c' := by
  simpa [isSpaceChar, decide_eq_true_eq, or_assoc] using h

theorem space_neLt {c : Char} (h : isSpaceChar c = true) : neLtChar c = true := by
  rcases isSpaceChar_cases h with rfl | rfl | rfl | rfl | rfl | rfl <;> decide

theorem space_ne_amp {c : Char} (h : isSpaceChar c = true) : c ≠ '&' := by
  rcases isSpaceChar_cases h with rfl | rfl | rfl | rfl | rfl | rfl <;> decide

theorem space_escChar {c : Char} (h : isSpaceChar c = true) : escChar c = [c] := by
  rcases isSpaceChar_cases h with rfl | rfl | rfl | rfl | rfl | rfl <;> decide

theorem name_not_space {c : Char} (h : nameChar c = true) : isSpaceChar c = false := by
  by_contra hs
  rw [Bool.not_eq_false] at hs
  rcases isSpaceChar_cases hs with rfl | rfl | rfl | rfl | rfl | rfl <;> simp_all [nameChar]

theorem name_ne {c x : Char} (h : nameChar c = true) (hx : nameChar x = false) : c ≠ x := by
  intro he
  rw [he] at h
  rw [h] at hx
  cases hx

theorem name_neEq {c : Char} (h : nameChar c = true) : neEqChar c = true := by
  rw [neEqChar, decide_eq_true_iff]
  exact name_ne h (by decide)

theorem name_scan {c : Char} (h : nameChar c = true) : nameScanChar c = true := by
  rw [nameScanChar, Bool.and_eq_true, decide_eq_true_iff, decide_eq_true_iff]
  exact ⟨name_ne h (by decide), name_ne h (by decide)⟩

theorem name_ne_slash {c : Char} (h : nameChar c = true) : c ≠ '/' :=
  name_ne h (by decide)

theorem escapeMin_nil : escapeMin [] = [] := rfl

theorem escapeMin_cons (c : Char) (t : List Char) :
    escapeMin (c :: t) = escChar c ++ escapeMin t := rfl

theorem escapeMin_append (x y : List Char) :
    escapeMin (x ++ y) = escapeMin x ++ escapeMin y :=
  List.flatMap_append x y escChar

theorem escapeMin_ws : ∀ {w : List Char}, (∀ c ∈ w, isSpaceChar c = true) →
    escapeMin w = w
  | [], _ => rfl
  | c :: t, h => by
    rw [escapeMin_cons, space_escChar (h c (by simp)),
      escapeMin_ws (fun x hx => h x (by simp [hx]))]
    rfl

theorem escChar_mem_ne {c x : Char} (h : x ∈ escChar c) : x ≠ '<' ∧ x ≠ '>' := by
  rw [escChar] at h
  split_ifs at h <;> simp at h
  · rcases h with rfl | rfl | rfl | rfl | rfl <;> exact ⟨by decide, by decide⟩
  · rcases h with rfl | rfl | rfl | rfl <;> exact ⟨by decide, by decide⟩
  · rcases h with rfl | rfl | rfl | rfl <;> exact ⟨by decide, by decide⟩
  · subst h
    refine ⟨?_, ?_⟩ <;> simp_all

theorem escapeMin_mem_ne {s : List Char} {x : Char} (h : x ∈ escapeMin s) :
    x ≠ '<' ∧ x ≠ '>' := by
  rw [escapeMin, List.mem_flatMap] at h
  obtain ⟨c, _, hc⟩ := h
  exact escChar_mem_ne hc

theorem escapeMin_neLt {s : List Char} : ∀ x ∈ escapeMin s, neLtChar x = true := by
  intro x hx
  rw [neLtChar, decide_eq_true_iff]
  exact (escapeMin_mem_ne hx).1

theorem escChar_mem_quote {c x : Char} (hc : neQuoteChar c = true) (h : x ∈ escChar c) :
    neQuoteChar x = true := by
  rw [escChar] at h
  split_ifs at h <;> simp at h
  · rcases h with rfl | rfl | rfl | rfl | rfl <;> decide
  · rcases h with rfl | rfl | rfl | rfl <;> decide
  · rcases h with rfl | rfl | rfl | rfl <;> decide
  · subst h; exact hc

theorem escapeMin_mem_quote {v : List Char} (hv : ∀ c ∈ v, neQuoteChar c = true) :
    ∀ x ∈ escapeMin v, neQuoteChar x = true := by
  intro x hx
  rw [escapeMin, List.mem_flatMap] at hx
  obtain ⟨c, hcv, hc⟩ := hx
  exact escChar_mem_quote (hv c hcv) hc

theorem unesc_nil : unescapeMin [] = [] := rfl

theorem unesc_cons_ne_amp {c : Char} (r : List Char) (h : c ≠ '&') :
    unescapeMin (c :: r) = c :: unescapeMin r := by
  rw [unescapeMin.eq_def]
  split <;> simp_all

theorem unesc_ws_append : ∀ {w : List Char} (r : List Char),
    (∀ c ∈ w, isSpaceChar c = true) → unescapeMin (w ++ r) = w ++ unescapeMin r
  | [], r, _ => rfl
  | c :: t, r, h => by
    rw [List.cons_append, unesc_cons_ne_amp _ (space_ne_amp (h c (by simp))),
      unesc_ws_append r (fun x hx => h x (by simp [hx]))]
    rfl

theorem unesc_esc_append : ∀ (s : List Char) (r : List Char),
    unescapeMin (escapeMin s ++ r) = s ++ unescapeMin r
  | [], r => rfl
  | c :: t, r => by
    rw [escapeMin_cons, List.append_assoc]
    by_cases h1 : c = '&'
    · subst h1
      show unescapeMin ('&' :: 'a' :: 'm' :: 'p' :: ';' :: (escapeMin t ++ r)) = _
      rw [unescapeMin, unesc_esc_append t r]
      rfl
    · by_cases h2 : c = '<'
      · subst h2
        show unescapeMin ('&' :: 'l' :: 't' :: ';' :: (escapeMin t ++ r)) = _
        rw [unescapeMin, unesc_esc_append t r]
        rfl
      · by_cases h3 : c = '>'
        · subst h3
          show unescapeMin ('&' :: 'g' :: 't' :: ';' :: (escapeMin t ++ r)) = _
          rw [unescapeMin, unesc_esc_append t r]
          rfl
        · have : escChar c = [c] := by simp [escChar, h1, h2, h3]
          rw [this]
          show unescapeMin (c :: (escapeMin t ++ r)) = _
          rw [unesc_cons_ne_amp _ h1, unesc_esc_append t r]
          rfl

theorem unesc_esc (s : List Char) : unescapeMin (escapeMin s) = s := by
  have := unesc_esc_append s []
  simpa [unesc_nil] using this

theorem unesc_ws {w : List Char} (h : ∀ c ∈ w, isSpaceChar c = true) :
    unescapeMin w = w := by
  have := unesc_ws_append (w := w) [] h
  simpa [unesc_nil] using this

theorem dropTrailing_nil (p : Char → Bool) : dropTrailing p [] = [] := rfl

theorem dropTrailing_append_ws {p : Char → Bool} {w : List Char} (x : List Char)
    (hw : ∀ c ∈ w, p c = true) : dropTrailing p (x ++ w) = dropTrailing p x := by
  rw [dropTrailing, dropTrailing, List.reverse_append,
    dropWhile_append_all _ (fun c hc => hw c (List.mem_reverse.mp hc))]

theorem dropTrailing_append_last {p : Char → Bool} {c : Char} (x : List Char)
    (hc : p c = false) : dropTrailing p (x ++ [c]) = x ++ [c] := by
  rw [dropTrailing, List.reverse_append]
  simp only [List.reverse_cons, List.reverse_nil, List.nil_append, List.cons_append,
    List.nil_append]
  rw [List.dropWhile_cons_of_neg (by simp [hc]), List.reverse_cons, List.reverse_reverse]

theorem dropTrailing_cons_head {p : Char → Bool} {c : Char} (t : List Char)
    (hc : p c = false) : dropTrailing p (c :: t) = c :: dropTrailing p t := by
  rw [dropTrailing, dropTrailing, List.reverse_cons]
  by_cases hd : t.reverse.dropWhile p = []
  · rw [dropWhile_append_all [c] (List.dropWhile_eq_nil_iff.mp hd),
      List.dropWhile_cons_of_neg (by simp [hc]), hd]
    simp
  · rw [dropWhile_append_of_ne_nil [c] hd]
    simp

theorem mem_dropTrailing {p : Char → Bool} {x : Char} {l : List Char}
    (h : x ∈ dropTrailing p l) : x ∈ l := by
  rw [dropTrailing] at h
  rw [List.mem_reverse] at h
  have := mem_dropWhile h
  rwa [List.mem_reverse] at this

theorem mem_stripWs {x : Char} {l : List Char} (h : x ∈ stripWs l) : x ∈ l :=
  mem_dropWhile (mem_dropTrailing h)

theorem stripWs_ws {w : List Char} (hw : ∀ c ∈ w, isSpaceChar c = true) :
    stripWs w = [] := by
  rw [stripWs, List.dropWhile_eq_nil_iff.mpr hw, dropTrailing_nil]

theorem stripWs_ws_prefix {w : List Char} (x : List Char)
    (hw : ∀ c ∈ w, isSpaceChar c = true) : stripWs (w ++ x) = stripWs x := by
  rw [stripWs, stripWs, dropWhile_append_all _ hw]

theorem stripWs_ws_suffix {w : List Char} (x : List Char)
    (hw : ∀ c ∈ w, isSpaceChar c = true) : stripWs (x ++ w) = stripWs x := by
  rw [stripWs, stripWs]
  by_cases hd : x.dropWhile isSpaceChar = []
  · rw [dropWhile_append_all _ (List.dropWhile_eq_nil_iff.mp hd),
      List.dropWhile_eq_nil_iff.mpr hw, hd]
  · rw [dropWhile_append_of_ne_nil _ hd, dropTrailing_append_ws _ hw]

theorem stripWs_sandwich {w1 w2 : List Char} (x : List Char)
    (h1 : ∀ c ∈ w1, isSpaceChar c = true) (h2 : ∀ c ∈ w2, isSpaceChar c = true) :
    stripWs (w1 ++ x ++ w2) = stripWs x := by
  rw [List.append_assoc, stripWs_ws_prefix _ h1, stripWs_ws_suffix _ h2]

theorem stripWs_head_false {l : List Char} {c : Char} {t : List Char}
    (h : stripWs l = c :: t) : isSpaceChar c = false := by
  rw [stripWs, dropTrailing] at h
  have h2 : ((l.dropWhile isSpaceChar).reverse.dropWhile isSpaceChar).reverse ≠ [] := by
    rw [h]; simp
  rcases hz : l.dropWhile isSpaceChar with _ | ⟨z, zs⟩
  · rw [hz] at h; simp at h
  · have hzf : isSpaceChar z = false := dropWhile_head_false hz
    rw [hz] at h
    have : ((z :: zs).reverse.dropWhile isSpaceChar).reverse = z :: dropTrailing isSpaceChar zs := by
      have := dropTrailing_cons_head (p := isSpaceChar) zs hzf
      rw [dropTrailing] at this
      exact this
    rw [this] at h
    cases h
    exact hzf

theorem stripWs_last_false {l : List Char} {c : Char} {t : List Char}
    (h : stripWs l = t ++ [c]) : isSpaceChar c = false := by
  rw [stripWs, dropTrailing] at h
  have : (l.dropWhile isSpaceChar).reverse.dropWhile isSpaceChar = c :: t.reverse := by
    have := congrArg List.reverse h
    rwa [List.reverse_reverse, List.reverse_append, List.reverse_cons, List.reverse_nil,
      List.nil_append, List.cons_append, List.nil_append] at this
  exact dropWhile_head_false this

theorem stripWs_idem (l : List Char) : stripWs (stripWs l) = stripWs l := by
  rcases hs : stripWs l with _ | ⟨c, t⟩
  · rfl
  · have hc : isSpaceChar c = false := stripWs_head_false hs
    rcases List.eq_nil_or_concat (c :: t) with h | ⟨t2, c2, h2⟩
    · cases h
    · rw [List.concat_eq_append] at h2
      have hc2 : isSpaceChar c2 = false := stripWs_last_false (h2 ▸ hs)
      rw [stripWs, List.dropWhile_cons_of_neg (by simp [hc]), h2,
        dropTrailing_append_last _ hc2]

theorem stripWs_join {e1 e2 : List Char} (mid : List Char)
    (h1 : stripWs e1 = e1) (h1n : e1 ≠ []) (h2 : stripWs e2 = e2) (h2n : e2 ≠ []) :
    stripWs (e1 ++ mid ++ e2) = e1 ++ mid ++ e2 := by
  rcases e1 with _ | ⟨c, t⟩
  · exact absurd rfl h1n
  · have hc : isSpaceChar c = false := stripWs_head_false h1
    rcases List.eq_nil_or_concat e2 with h | ⟨t2, c2, hsplit⟩
    · exact absurd h h2n
    · rw [List.concat_eq_append] at hsplit
      have hc2 : isSpaceChar c2 = false := stripWs_last_false (hsplit ▸ h2)
      rw [stripWs, List.cons_append, List.cons_append,
        List.dropWhile_cons_of_neg (by simp [hc]), hsplit]
      rw [show c :: (t ++ mid ++ (t2 ++ [c2])) = (c :: (t ++ mid ++ t2)) ++ [c2] by simp,
        dropTrailing_append_last _ hc2]

theorem dropWhile_escChar_append {c : Char} (X : List Char) (hc : isSpaceChar c = false) :
    (escChar c ++ X).dropWhile isSpaceChar = escChar c ++ X := by
  rw [escChar]
  split_ifs with h1 h2 h3
  · rw [show "&amp;".data ++ X = '&' :: ("amp;".data ++ X) from rfl,
      List.dropWhile_cons_of_neg (by decide)]
  · rw [show "&lt;".data ++ X = '&' :: ("lt;".data ++ X) from rfl,
      List.dropWhile_cons_of_neg (by decide)]
  · rw [show "&gt;".data ++ X = '&' :: ("gt;".data ++ X) from rfl,
      List.dropWhile_cons_of_neg (by decide)]
  · rw [List.cons_append, List.dropWhile_cons_of_neg (by simp [hc])]

theorem dropWhile_escapeMin : ∀ (s : List Char),
    (escapeMin s).dropWhile isSpaceChar = escapeMin (s.dropWhile isSpaceChar)
  | [] => rfl
  | c :: t => by
    rw [escapeMin_cons]
    by_cases hc : isSpaceChar c = true
    · rw [space_escChar hc, List.singleton_append, List.dropWhile_cons_of_pos hc,
        List.dropWhile_cons_of_pos hc, dropWhile_escapeMin t]
    · rw [Bool.not_eq_true] at hc
      rw [dropWhile_escChar_append _ hc, List.dropWhile_cons_of_neg (by simp [hc]),
        escapeMin_cons]

theorem dropTrailing_escChar_append {c : Char} (X : List Char) (hc : isSpaceChar c = false) :
    dropTrailing isSpaceChar (X ++ escChar c) = X ++ escChar c := by
  rw [escChar]
  split_ifs with h1 h2 h3
  · rw [show X ++ "&amp;".data = (X ++ ['&', 'a', 'm', 'p']) ++ [';'] by simp,
      dropTrailing_append_last _ (by decide)]
  · rw [show X ++ "&lt;".data = (X ++ ['&', 'l', 't']) ++ [';'] by simp,
      dropTrailing_append_last _ (by decide)]
  · rw [show X ++ "&gt;".data = (X ++ ['&', 'g', 't']) ++ [';'] by simp,
      dropTrailing_append_last _ (by decide)]
  · rw [dropTrailing_append_last _ hc]

theorem dropTrailing_escapeMin (s : List Char) :
    dropTrailing isSpaceChar (escapeMin s) = escapeMin (dropTrailing isSpaceChar s) := by
  induction s using List.reverseRecOn with
  | nil => rfl
  | append_singleton s' c ih =>
    rw [escapeMin_append, show escapeMin [c] = escChar c by simp [escapeMin]]
    by_cases hc : isSpaceChar c = true
    · rw [space_escChar hc, dropTrailing_append_ws _ (by simpa using hc),
        dropTrailing_append_ws _ (by simpa using hc), ih]
    · rw [Bool.not_eq_true] at hc
      rw [dropTrailing_escChar_append _ hc, dropTrailing_append_last _ hc,
        escapeMin_append]
      simp [escapeMin]

theorem stripWs_escapeMin (s : List Char) :
    stripWs (escapeMin s) = escapeMin (stripWs s) := by
  rw [stripWs, stripWs, dropWhile_escapeMin, dropTrailing_escapeMin]

theorem sortAttrs_sorted (l : List (List Char × List Char)) :
    List.Sorted attrLe (sortAttrs l) :=
  List.sorted_insertionSort attrLe l

theorem sortAttrs_idem (l : List (List Char × List Char)) :
    sortAttrs (sortAttrs l) = sortAttrs l :=
  (sortAttrs_sorted l).insertionSort_eq

theorem sortAttrs_mem {l : List (List Char × List Char)} {x : List Char × List Char} :
    x ∈ sortAttrs l ↔ x ∈ l :=
  List.mem_insertionSort attrLe

/-! ### Attribute rendering/parsing round trip -/
theorem renderAttrs_nil : renderAttrs [] = [] := rfl

theorem renderAttrs_cons (kv : List Char × List Char) (rest : List (List Char × List Char)) :
    renderAttrs (kv :: rest) =
      ' ' :: (kv.1 ++ '=' :: '"' :: (escapeMin kv.2 ++ ['"'])) ++ renderAttrs rest := rfl

theorem parseAttrs_render :
    ∀ (ats : List (List Char × List Char)) (r : List Char) (fuel : Nat),
      (∀ kv ∈ ats, wfAttrEntry kv = true) → ats.length < fuel →
      parseAttrs fuel (renderAttrs ats ++ '>' :: r) = some (ats, r)
  | [], r, fuel, _, hf => by
    rcases fuel with _ | f
    · omega
    · rw [renderAttrs_nil, List.nil_append]
      rfl
  | (k, v) :: rest, r, fuel, h, hf => by
    rcases fuel with _ | f
    · omega
    · have hk : wfAttrEntry (k, v) = true := h _ (by simp)
      rw [wfAttrEntry, Bool.and_eq_true] at hk
      have hknm : ∀ c ∈ k, nameChar c = true := by
        have := hk.1
        rw [wfName, Bool.and_eq_true, List.all_eq_true] at this
        exact fun c hc => this.2 c hc
      have hv : ∀ c ∈ v, neQuoteChar c = true := by
        have := hk.2
        rw [List.all_eq_true] at this
        exact fun c hc => this c hc
      rw [renderAttrs_cons]
      have hshape :
          (' ' :: (k ++ '=' :: '"' :: (escapeMin v ++ ['"'])) ++ renderAttrs rest) ++
              '>' :: r =
            ' ' :: (k ++ '=' :: '"' :: (escapeMin v ++
              '"' :: (renderAttrs rest ++ '>' :: r))) := by
        simp
      rw [hshape]
      show parseAttrs (f + 1) _ = _
      rw [parseAttrs]
      rw [takeWhile_append_all _ (fun c hc => name_neEq (hknm c hc)),
        dropWhile_append_all _ (fun c hc => name_neEq (hknm c hc)),
        List.takeWhile_cons_of_neg (by decide), List.dropWhile_cons_of_neg (by decide),
        List.append_nil]
      simp only []
      rw [takeWhile_append_all _ (escapeMin_mem_quote hv),
        dropWhile_append_all _ (escapeMin_mem_quote hv),
        List.takeWhile_cons_of_neg (by decide), List.dropWhile_cons_of_neg (by decide),
        List.append_nil]
      simp only []
      rw [parseAttrs_render rest r f (fun kv hkv => h kv (by simp [hkv])) (by simpa using hf)]
      rw [unesc_esc]

/-! ### Well-formedness transport through `cleanForest` -/
theorem cleanOk_cleanForest : ∀ (f : Forest), wfF f = true →
    cleanOkF (cleanForest f) = true
  | .nil, _ => rfl
  | .cons (.txt s) tl, h => by
    rw [wfF, Bool.and_eq_true] at h
    rw [cleanForest_cons_txt, cleanOkF, cleanOkT, Bool.true_and]
    exact cleanOk_cleanForest tl h.2
  | .cons (.el n a c) tl, h => by
    rw [wfF, Bool.and_eq_true] at h
    have ht := h.1
    rw [wfT, Bool.and_eq_true, Bool.and_eq_true] at ht
    by_cases hb : n ∈ bannedTags
    · rw [cleanForest_cons_el_banned _ _ _ hb]
      exact cleanOk_cleanForest tl h.2
    · rw [cleanForest_cons_el _ _ _ hb, cleanOkF, Bool.and_eq_true]
      refine ⟨?_, cleanOk_cleanForest tl h.2⟩
      rw [cleanOkT, Bool.and_eq_true, Bool.and_eq_true, Bool.and_eq_true]
      refine ⟨⟨⟨ht.1.1, by simpa using hb⟩, ?_⟩, cleanOk_cleanForest c ht.2⟩
      rw [List.all_eq_true]
      intro kv hkv
      rw [filterAttrs, List.mem_filter] at hkv
      rw [Bool.and_eq_true]
      constructor
      · have := ht.1.2
        rw [List.all_eq_true] at this
        exact this kv hkv.1
      · simpa using hkv.2

/-! ### Prettified-line lemmas -/
theorem prettyF_nil (d : Nat) : prettyF d .nil = [] := rfl

theorem prettyF_cons (d : Nat) (t : Tree) (tl : Forest) :
    prettyF d (.cons t tl) = prettyT d t ++ prettyF d tl := rfl

theorem prettyT_txt (d : Nat) (s : List Char) :
    prettyT d (.txt s) =
      if stripWs (escapeMin s) = [] then []
      else indentOf d ++ stripWs (escapeMin s) ++ ['\n'] := rfl

theorem prettyT_el (d : Nat) (n : List Char) (a : List (List Char × List Char)) (c : Forest) :
    prettyT d (.el n a c) =
      indentOf d ++ '<' :: (n ++ renderAttrs (sortAttrs a) ++ '>' :: '\n' ::
        (prettyF (d + 1) c ++ indentOf d ++ '<' :: '/' :: (n ++ '>' :: '\n' :: []))) := rfl

theorem indentOf_ws (d : Nat) : ∀ c ∈ indentOf d, isSpaceChar c = true := by
  intro c hc
  rw [indentOf] at hc
  rw [List.eq_of_mem_replicate hc]
  rfl

/-- Reprinting a whitespace-only text node yields nothing. -/
theorem prettyT_txt_ws (d : Nat) {w : List Char} (hw : ∀ c ∈ w, isSpaceChar c = true) :
    prettyT d (.txt (unescapeMin w)) = [] := by
  rw [unesc_ws hw, prettyT_txt, escapeMin_ws hw, if_pos (stripWs_ws hw)]

/-- Reprinting a text run `w1 ++ escapeMin s1 ++ w2` (whitespace around an
escaped, already stripped payload) reproduces exactly the original text
line. -/
theorem prettyT_txt_sandwich (d : Nat) {w1 w2 : List Char} (s1 : List Char)
    (hw1 : ∀ c ∈ w1, isSpaceChar c = true) (hw2 : ∀ c ∈ w2, isSpaceChar c = true)
    (hs1 : stripWs s1 = s1) (hne : escapeMin s1 ≠ []) :
    prettyT d (.txt (unescapeMin (w1 ++ (escapeMin s1 ++ w2)))) =
      indentOf d ++ escapeMin s1 ++ ['\n'] := by
  rw [unesc_ws_append _ hw1, unesc_esc_append s1 w2, unesc_ws hw2, prettyT_txt]
  rw [show w1 ++ (s1 ++ w2) = w1 ++ s1 ++ w2 by simp, escapeMin_append, escapeMin_append,
    escapeMin_ws hw1, escapeMin_ws hw2, stripWs_sandwich _ hw1 hw2, stripWs_escapeMin,
    hs1, if_neg hne]

/-- The merged text node produced for two adjacent printable text lines
reprints to the two original lines. -/
theorem prettyT_txt_merge (d : Nat) (s1 s2 : List Char)
    (h1 : stripWs s1 = s1) (h2 : stripWs s2 = s2)
    (hn1 : escapeMin s1 ≠ []) (hn2 : escapeMin s2 ≠ []) :
    prettyT d (.txt (s1 ++ '\n' :: (indentOf d ++ s2))) =
      (indentOf d ++ escapeMin s1 ++ ['\n']) ++ (indentOf d ++ escapeMin s2 ++ ['\n']) := by
  have hmid : ∀ c ∈ '\n' :: indentOf d, isSpaceChar c = true := by
    intro c hc
    rcases List.mem_cons.mp hc with rfl | hc
    · rfl
    · exact indentOf_ws d c hc
  have hesc : escapeMin (s1 ++ '\n' :: (indentOf d ++ s2)) =
      escapeMin s1 ++ ('\n' :: indentOf d) ++ escapeMin s2 := by
    rw [show s1 ++ '\n' :: (indentOf d ++ s2) = s1 ++ ('\n' :: indentOf d) ++ s2 by simp,
      escapeMin_append, escapeMin_append, escapeMin_ws hmid]
  have hself1 : stripWs (escapeMin s1) = escapeMin s1 := by
    rw [stripWs_escapeMin, h1]
  have hself2 : stripWs (escapeMin s2) = escapeMin s2 := by
    rw [stripWs_escapeMin, h2]
  rw [prettyT_txt, hesc, stripWs_join _ hself1 hn1 hself2 hn2,
    if_neg (by simp [hn1])]
  simp

/-! ### Parser-side support lemmas -/
theorem isPrefixList_append : ∀ (n z : List Char), isPrefixList n (n ++ z) = true
  | [], _ => rfl
  | c :: t, z => by
    rw [List.cons_append, isPrefixList, Bool.and_eq_true]
    exact ⟨by simp, isPrefixList_append t z⟩

theorem parseClose_render (n r : List Char) :
    parseClose n ('<' :: '/' :: (n ++ '>' :: r)) = some r := by
  rw [parseClose, if_pos (isPrefixList_append n _), List.drop_left]
  rfl

theorem renderAttrs_scan (ats : List (List Char × List Char)) (z : List Char) :
    (renderAttrs ats ++ '>' :: z).takeWhile nameScanChar = [] ∧
      (renderAttrs ats ++ '>' :: z).dropWhile nameScanChar = renderAttrs ats ++ '>' :: z := by
  rcases ats with _ | ⟨kv, rest⟩
  · rw [renderAttrs_nil, List.nil_append]
    exact ⟨List.takeWhile_cons_of_neg (by decide), List.dropWhile_cons_of_neg (by decide)⟩
  · rw [renderAttrs_cons]
    rw [show (' ' :: (kv.1 ++ '=' :: '"' :: (escapeMin kv.2 ++ ['"'])) ++ renderAttrs rest) ++
        '>' :: z = ' ' :: ((kv.1 ++ '=' :: '"' :: (escapeMin kv.2 ++ ['"'])) ++
        renderAttrs rest ++ '>' :: z) by simp]
    exact ⟨List.takeWhile_cons_of_neg (by decide), List.dropWhile_cons_of_neg (by decide)⟩

theorem renderAttrs_length_ge :
    ∀ (ats : List (List Char × List Char)), ats.length ≤ (renderAttrs ats).length
  | [] => Nat.le_refl 0
  | kv :: rest => by
    rw [renderAttrs_cons]
    simp only [List.length_cons, List.length_append]
    have := renderAttrs_length_ge rest
    omega

theorem filterAttrs_of_allow {ats : List (List Char × List Char)}
    (h : ∀ kv ∈ ats, kv.1 ∈ attrAllowlist) : filterAttrs ats = ats := by
  rw [filterAttrs, List.filter_eq_self]
  intro kv hkv
  exact decide_eq_true (h kv hkv)

theorem wfName_chars {n : List Char} (h : wfName n = true) : ∀ c ∈ n, nameChar c = true := by
  rw [wfName, Bool.and_eq_true, List.all_eq_true] at h
  exact fun c hc => h.2 c hc

theorem wfName_ne_nil {n : List Char} (h : wfName n = true) : n ≠ [] := by
  rw [wfName, Bool.and_eq_true, decide_eq_true_iff] at h
  exact h.1

/-- Core of the round-trip proof: parsing an element (preceded by an
already-scanned text prefix `P`) consumes exactly its prettified text and
reprints faithfully.  `Hc`/`Htl` are the induction hypotheses for the
children and the following siblings. -/
theorem parse_el_core (d : Nat) (n : List Char) (a : List (List Char × List Char))
    (c tl : Forest) (hn : wfName n = true) (hnb : n ∉ bannedTags)
    (ha : ∀ kv ∈ a, wfAttrEntry kv = true ∧ kv.1 ∈ attrAllowlist)
    (Hc : ParseRT c) (Htl : ParseRT tl)
    (P sp rtail : List Char) (fuel : Nat)
    (hP : ∀ x ∈ P, neLtChar x = true)
    (hsp : ∀ x ∈ sp, isSpaceChar x = true)
    (hrt : rtail = [] ∨ ∃ r, rtail = '<' :: '/' :: r)
    (hfuel : (P ++ '<' :: (n ++ (renderAttrs (sortAttrs a) ++ '>' :: '\n' ::
      (prettyF (d + 1) c ++ (indentOf d ++ '<' :: '/' :: (n ++ '>' :: '\n' ::
      (prettyF d tl ++ (sp ++ rtail)))))))).length < fuel) :
    ∃ v, parseNodes fuel (P ++ '<' :: (n ++ (renderAttrs (sortAttrs a) ++ '>' :: '\n' ::
        (prettyF (d + 1) c ++ (indentOf d ++ '<' :: '/' :: (n ++ '>' :: '\n' ::
        (prettyF d tl ++ (sp ++ rtail)))))))) = some (v, rtail) ∧
      prettyF d (cleanForest v) = prettyRaw d P ++ (prettyT d (.el n a c) ++ prettyF d tl) := by
  rcases fuel with _ | f
  · exact absurd hfuel (by omega)
  have hnNil := wfName_ne_nil hn
  have hnChars := wfName_chars hn
  obtain ⟨vs, hvs, hvsr⟩ :=
    Htl d ['\n'] sp rtail f
      (by intro x hx; simp at hx; subst hx; rfl) hsp hrt
      (by
        simp only [List.length_append, List.length_cons, List.length_nil] at hfuel ⊢
        omega)
  obtain ⟨vc, hvc, hvcr⟩ :=
    Hc (d + 1) ['\n'] (indentOf d)
      ('<' :: '/' :: (n ++ '>' :: '\n' :: (prettyF d tl ++ (sp ++ rtail)))) f
      (by intro x hx; simp at hx; subst hx; rfl) (indentOf_ws d)
      (Or.inr ⟨_, rfl⟩)
      (by
        simp only [List.length_append, List.length_cons, List.length_nil] at hfuel ⊢
        omega)
  have hvc' : parseNodes f ('\n' :: (prettyF (d + 1) c ++ (indentOf d ++ '<' :: '/' ::
      (n ++ '>' :: '\n' :: (prettyF d tl ++ (sp ++ rtail)))))) =
      some (vc, '<' :: '/' :: (n ++ '>' :: '\n' :: (prettyF d tl ++ (sp ++ rtail)))) := by
    rw [show ('\n' :: (prettyF (d + 1) c ++ (indentOf d ++ '<' :: '/' ::
        (n ++ '>' :: '\n' :: (prettyF d tl ++ (sp ++ rtail)))))) =
      ['\n'] ++ (prettyF (d + 1) c ++ (indentOf d ++ ('<' :: '/' ::
        (n ++ '>' :: '\n' :: (prettyF d tl ++ (sp ++ rtail)))))) by simp]
    exact hvc
  have hvs' : parseNodes f ('\n' :: (prettyF d tl ++ (sp ++ rtail))) =
      some (vs, rtail) := by
    rw [show ('\n' :: (prettyF d tl ++ (sp ++ rtail))) =
      ['\n'] ++ (prettyF d tl ++ (sp ++ rtail)) by simp]
    exact hvs
  have hclose : parseClose n ('<' :: '/' :: (n ++ '>' :: '\n' ::
      (prettyF d tl ++ (sp ++ rtail)))) =
      some ('\n' :: (prettyF d tl ++ (sp ++ rtail))) := parseClose_render n _
  have htw : (P ++ '<' :: (n ++ (renderAttrs (sortAttrs a) ++ '>' :: '\n' ::
      (prettyF (d + 1) c ++ (indentOf d ++ '<' :: '/' :: (n ++ '>' :: '\n' ::
      (prettyF d tl ++ (sp ++ rtail)))))))).takeWhile neLtChar = P := by
    rw [takeWhile_append_all _ hP, List.takeWhile_cons_of_neg (by decide), List.append_nil]
  have hdw : (P ++ '<' :: (n ++ (renderAttrs (sortAttrs a) ++ '>' :: '\n' ::
      (prettyF (d + 1) c ++ (indentOf d ++ '<' :: '/' :: (n ++ '>' :: '\n' ::
      (prettyF d tl ++ (sp ++ rtail)))))))).dropWhile neLtChar =
      '<' :: (n ++ (renderAttrs (sortAttrs a) ++ '>' :: '\n' ::
      (prettyF (d + 1) c ++ (indentOf d ++ '<' :: '/' :: (n ++ '>' :: '\n' ::
      (prettyF d tl ++ (sp ++ rtail))))))) := by
    rw [dropWhile_append_all _ hP, List.dropWhile_cons_of_neg (by decide)]
  have hnm : (n ++ (renderAttrs (sortAttrs a) ++ '>' :: '\n' ::
      (prettyF (d + 1) c ++ (indentOf d ++ '<' :: '/' :: (n ++ '>' :: '\n' ::
      (prettyF d tl ++ (sp ++ rtail))))))).takeWhile nameScanChar = n := by
    rw [takeWhile_append_all _ (fun x hx => name_scan (hnChars x hx)),
      (renderAttrs_scan (sortAttrs a) _).1, List.append_nil]
  have hnmd : (n ++ (renderAttrs (sortAttrs a) ++ '>' :: '\n' ::
      (prettyF (d + 1) c ++ (indentOf d ++ '<' :: '/' :: (n ++ '>' :: '\n' ::
      (prettyF d tl ++ (sp ++ rtail))))))).dropWhile nameScanChar =
      renderAttrs (sortAttrs a) ++ '>' :: '\n' ::
      (prettyF (d + 1) c ++ (indentOf d ++ '<' :: '/' :: (n ++ '>' :: '\n' ::
      (prettyF d tl ++ (sp ++ rtail))))) := by
    rw [dropWhile_append_all _ (fun x hx => name_scan (hnChars x hx)),
      (renderAttrs_scan (sortAttrs a) _).2]
  have hats : ∀ kv ∈ sortAttrs a, wfAttrEntry kv = true :=
    fun kv hkv => (ha kv (sortAttrs_mem.mp hkv)).1
  have hpa : parseAttrs ((n ++ (renderAttrs (sortAttrs a) ++ '>' :: '\n' ::
      (prettyF (d + 1) c ++ (indentOf d ++ '<' :: '/' :: (n ++ '>' :: '\n' ::
      (prettyF d tl ++ (sp ++ rtail))))))).length + 1)
      (renderAttrs (sortAttrs a) ++ '>' :: '\n' ::
      (prettyF (d + 1) c ++ (indentOf d ++ '<' :: '/' :: (n ++ '>' :: '\n' ::
      (prettyF d tl ++ (sp ++ rtail)))))) =
      some (sortAttrs a, '\n' ::
      (prettyF (d + 1) c ++ (indentOf d ++ '<' :: '/' :: (n ++ '>' :: '\n' ::
      (prettyF d tl ++ (sp ++ rtail)))))) := by
    apply parseAttrs_render _ _ _ hats
    have h1 : (sortAttrs a).length ≤ (renderAttrs (sortAttrs a)).length :=
      renderAttrs_length_ge _
    simp only [List.length_append, List.length_cons]
    omega
  have hrepr : ∀ w : Forest,
      prettyF d (cleanForest (.cons (.el n (sortAttrs a) vc) w)) =
        prettyT d (.el n a c) ++ prettyF d (cleanForest w) := by
    intro w
    rw [cleanForest_cons_el _ _ _ hnb, prettyF_cons, prettyT_el,
      filterAttrs_of_allow (fun kv hkv => (ha kv (sortAttrs_mem.mp hkv)).2),
      sortAttrs_idem, hvcr, prettyT_el]
  rw [parseNodes]
  simp only [htw, hdw]
  rcases n with _ | ⟨c0, n2⟩
  · exact absurd rfl hnNil
  split
  · rename_i heq
    simp at heq
  · rename_i heq
    rw [List.cons_append] at heq
    have hc0 : c0 = '/' := (List.cons_eq_cons.mp (List.cons_eq_cons.mp heq).2).1
    exact absurd hc0 (name_ne_slash (hnChars c0 (by simp)))
  · rename_i rest heq
    rw [← (List.cons_eq_cons.mp heq).2]
    rw [hnm, if_neg hnNil, hnmd, hpa]
    simp only [hvc', hclose, hvs']
    refine ⟨_, rfl, ?_⟩
    by_cases hPe : P = []
    · rw [if_pos hPe, hrepr, hvsr, prettyRaw, if_pos hPe]
      simp
    · rw [if_neg hPe, cleanForest_cons_txt, prettyF_cons, hrepr, hvsr,
        prettyRaw, if_neg hPe]
  · rename_i hne1 hne2 hne3
    exact absurd rfl (hne3 _)

theorem countT_pos : ∀ t : Tree, 1 ≤ countT t
  | .txt _ => le_refl 1
  | .el _ _ c => by rw [countT]; omega

theorem countF_cons (t : Tree) (tl : Forest) :
    countF (.cons t tl) = countT t + countF tl := rfl

theorem prettyRaw_ws (d : Nat) {P : List Char} (hw : ∀ c ∈ P, isSpaceChar c = true) :
    prettyRaw d P = [] := by
  rw [prettyRaw]
  by_cases hP : P = []
  · rw [if_pos hP]
  · rw [if_neg hP, prettyT_txt_ws d hw]

/-- The empty forest satisfies the round-trip property. -/
theorem parseRT_nil : ParseRT .nil := by
  intro d lead sp rtail fuel hlead hsp hrt hfuel
  rcases fuel with _ | f
  · exact absurd hfuel (by omega)
  rw [prettyF_nil, List.nil_append]
  have hws : ∀ c ∈ lead ++ sp, isSpaceChar c = true := by
    intro c hc
    rcases List.mem_append.mp hc with h | h
    · exact hlead c h
    · exact hsp c h
  rcases hrt with rfl | ⟨r, rfl⟩
  · have htw : (lead ++ (sp ++ ([] : List Char))).takeWhile neLtChar =
        lead ++ (sp ++ ([] : List Char)) := by
      rw [takeWhile_append_all _ (fun c hc => space_neLt (hlead c hc)),
        takeWhile_append_all _ (fun c hc => space_neLt (hsp c hc))]
      rfl
    have hdw : (lead ++ (sp ++ ([] : List Char))).dropWhile neLtChar = [] := by
      rw [dropWhile_append_all _ (fun c hc => space_neLt (hlead c hc)),
        dropWhile_append_all _ (fun c hc => space_neLt (hsp c hc))]
      rfl
    rw [parseNodes]
    simp only [htw, hdw]
    refine ⟨_, rfl, ?_⟩
    by_cases hPe : lead ++ (sp ++ ([] : List Char)) = []
    · rw [if_pos hPe]
      rfl
    · rw [if_neg hPe, cleanForest_cons_txt, prettyF_cons,
        prettyT_txt_ws d (by
          intro c hc
          rw [List.append_nil] at hc
          exact hws c hc)]
      rfl
  · have htw : (lead ++ (sp ++ '<' :: '/' :: r)).takeWhile neLtChar = lead ++ sp := by
      rw [takeWhile_append_all _ (fun c hc => space_neLt (hlead c hc)),
        takeWhile_append_all _ (fun c hc => space_neLt (hsp c hc)),
        List.takeWhile_cons_of_neg (by decide), List.append_nil]
    have hdw : (lead ++ (sp ++ '<' :: '/' :: r)).dropWhile neLtChar = '<' :: '/' :: r := by
      rw [dropWhile_append_all _ (fun c hc => space_neLt (hlead c hc)),
        dropWhile_append_all _ (fun c hc => space_neLt (hsp c hc)),
        List.dropWhile_cons_of_neg (by decide)]
    rw [parseNodes]
    simp only [htw, hdw]
    refine ⟨_, rfl, ?_⟩
    by_cases hPe : lead ++ sp = []
    · rw [if_pos hPe]
      rfl
    · rw [if_neg hPe, cleanForest_cons_txt, prettyF_cons, prettyT_txt_ws d hws]
      rfl

theorem takeWhile_all_eq_self {p : Char → Bool} :
    ∀ {l : List Char}, (∀ c ∈ l, p c = true) → l.takeWhile p = l
  | [], _ => rfl
  | c :: t, h => by
    rw [List.takeWhile_cons_of_pos (h c (by simp)),
      takeWhile_all_eq_self (fun x hx => h x (by simp [hx]))]

/-- A forest consisting of one printable text node satisfies the
round-trip property. -/
theorem parseRT_txt_nil (s : List Char) (he : stripWs (escapeMin s) ≠ []) :
    ParseRT (.cons (.txt s) .nil) := by
  intro d lead sp rtail fuel hlead hsp hrt hfuel
  rcases fuel with _ | f
  · exact absurd hfuel (by omega)
  have hself : stripWs (stripWs s) = stripWs s := stripWs_idem s
  have hne : escapeMin (stripWs s) ≠ [] := by
    rw [← stripWs_escapeMin]
    exact he
  rw [prettyF_cons, prettyF_nil, List.append_nil, prettyT_txt, if_neg he,
    stripWs_escapeMin] at hfuel ⊢
  have hmem : ∀ x ∈ escapeMin (stripWs s), neLtChar x = true := escapeMin_neLt
  rcases hrt with rfl | ⟨r, rfl⟩
  · have hall : ∀ x ∈ lead ++ (indentOf d ++ escapeMin (stripWs s) ++ ['\n'] ++
        (sp ++ ([] : List Char))), neLtChar x = true := by
      intro x hx
      have hx2 : x ∈ lead ∨ x ∈ indentOf d ∨ x ∈ escapeMin (stripWs s) ∨ x = '\n' ∨
          x ∈ sp := by
        simpa [List.mem_append, or_assoc, List.append_nil] using hx
      rcases hx2 with hx2 | hx2 | hx2 | rfl | hx2
      · exact space_neLt (hlead x hx2)
      · exact space_neLt (indentOf_ws d x hx2)
      · exact hmem x hx2
      · decide
      · exact space_neLt (hsp x hx2)
    have htw := takeWhile_all_eq_self hall
    have hdw := List.dropWhile_eq_nil_iff.mpr (by
      intro x hx
      exact hall x hx)
    rw [parseNodes]
    simp only [htw, hdw]
    have hraw : lead ++ (indentOf d ++ escapeMin (stripWs s) ++ ['\n'] ++
        (sp ++ ([] : List Char))) ≠ [] := by
      simp [hne]
    refine ⟨_, rfl, ?_⟩
    rw [if_neg hraw, cleanForest_cons_txt, prettyF_cons, cleanForest_nil, prettyF_nil,
      List.append_nil]
    rw [show lead ++ (indentOf d ++ escapeMin (stripWs s) ++ ['\n'] ++
        (sp ++ ([] : List Char))) =
      (lead ++ indentOf d) ++ (escapeMin (stripWs s) ++ ('\n' :: sp)) by simp]
    rw [prettyT_txt_sandwich d (stripWs s)
      (by
        intro x hx
        rcases List.mem_append.mp hx with hx | hx
        · exact hlead x hx
        · exact indentOf_ws d x hx)
      (by
        intro x hx
        rcases List.mem_cons.mp hx with rfl | hx
        · rfl
        · exact hsp x hx)
      hself hne]
  · have htw : (lead ++ (indentOf d ++ escapeMin (stripWs s) ++ ['\n'] ++
        (sp ++ ('<' :: '/' :: r)))).takeWhile neLtChar =
        lead ++ (indentOf d ++ escapeMin (stripWs s) ++ ['\n'] ++ sp) := by
      rw [takeWhile_append_all _ (fun c hc => space_neLt (hlead c hc))]
      rw [show indentOf d ++ escapeMin (stripWs s) ++ ['\n'] ++ (sp ++ ('<' :: '/' :: r)) =
        indentOf d ++ (escapeMin (stripWs s) ++ ('\n' :: (sp ++ ('<' :: '/' :: r)))) by simp]
      rw [takeWhile_append_all _ (fun c hc => space_neLt (indentOf_ws d c hc)),
        takeWhile_append_all _ hmem, List.takeWhile_cons_of_pos (by decide),
        takeWhile_append_all _ (fun c hc => space_neLt (hsp c hc)),
        List.takeWhile_cons_of_neg (by decide), List.append_nil]
      simp
    have hdw : (lead ++ (indentOf d ++ escapeMin (stripWs s) ++ ['\n'] ++
        (sp ++ ('<' :: '/' :: r)))).dropWhile neLtChar = '<' :: '/' :: r := by
      rw [dropWhile_append_all _ (fun c hc => space_neLt (hlead c hc))]
      rw [show indentOf d ++ escapeMin (stripWs s) ++ ['\n'] ++ (sp ++ ('<' :: '/' :: r)) =
        indentOf d ++ (escapeMin (stripWs s) ++ ('\n' :: (sp ++ ('<' :: '/' :: r)))) by simp]
      rw [dropWhile_append_all _ (fun c hc => space_neLt (indentOf_ws d c hc)),
        dropWhile_append_all _ hmem, List.dropWhile_cons_of_pos (by decide),
        dropWhile_append_all _ (fun c hc => space_neLt (hsp c hc)),
        List.dropWhile_cons_of_neg (by decide)]
    rw [parseNodes]
    simp only [htw, hdw]
    have hraw : lead ++ (indentOf d ++ escapeMin (stripWs s) ++ ['\n'] ++ sp) ≠ [] := by
      simp [hne]
    refine ⟨_, rfl, ?_⟩
    rw [if_neg hraw, cleanForest_cons_txt, prettyF_cons, cleanForest_nil, prettyF_nil,
      List.append_nil]
    rw [show lead ++ (indentOf d ++ escapeMin (stripWs s) ++ ['\n'] ++ sp) =
      (lead ++ indentOf d) ++ (escapeMin (stripWs s) ++ ('\n' :: sp)) by simp]
    rw [prettyT_txt_sandwich d (stripWs s)
      (by
        intro x hx
        rcases List.mem_append.mp hx with hx | hx
        · exact hlead x hx
        · exact indentOf_ws d x hx)
      (by
        intro x hx
        rcases List.mem_cons.mp hx with rfl | hx
        · rfl
        · exact hsp x hx)
      hself hne]

/-- Every cleaned forest satisfies the parser round-trip property
(induction on the node count). -/
theorem parseRT_of_cleanOk : ∀ (k : Nat) (u : Forest), countF u ≤ k →
    cleanOkF u = true → ParseRT u := by
  intro k
  induction k with
  | zero =>
    intro u hc _
    rcases u with _ | ⟨t, tl⟩
    · exact parseRT_nil
    · have := countT_pos t
      rw [countF_cons] at hc
      omega
  | succ k ih =>
    intro u hc hok
    rcases u with _ | ⟨t, tl⟩
    · exact parseRT_nil
    rcases t with ⟨n, a, ch⟩ | ⟨s⟩
    · -- element head
      rw [countF_cons, countT] at hc
      simp only [cleanOkF, Bool.and_eq_true] at hok
      obtain ⟨hokT, hokTl⟩ := hok
      simp only [cleanOkT, Bool.and_eq_true, decide_eq_true_eq] at hokT
      obtain ⟨⟨⟨hn, hnb⟩, hall⟩, hokCh⟩ := hokT
      have ha : ∀ kv ∈ a, wfAttrEntry kv = true ∧ kv.1 ∈ attrAllowlist := by
        intro kv hkv
        rw [List.all_eq_true] at hall
        have := hall kv hkv
        rw [Bool.and_eq_true, decide_eq_true_eq] at this
        exact this
      have Hc : ParseRT ch := ih ch (by omega) hokCh
      have Htl : ParseRT tl := ih tl (by omega) hokTl
      intro d lead sp rtail fuel hlead hsp hrt hfuel
      have hP : ∀ x ∈ lead ++ indentOf d, neLtChar x = true := by
        intro x hx
        rcases List.mem_append.mp hx with hx | hx
        · exact space_neLt (hlead x hx)
        · exact space_neLt (indentOf_ws d x hx)
      have hshape : lead ++ (prettyF d (.cons (.el n a ch) tl) ++ (sp ++ rtail)) =
          (lead ++ indentOf d) ++ '<' :: (n ++ (renderAttrs (sortAttrs a) ++ '>' :: '\n' ::
            (prettyF (d + 1) ch ++ (indentOf d ++ '<' :: '/' :: (n ++ '>' :: '\n' ::
            (prettyF d tl ++ (sp ++ rtail))))))) := by
        rw [prettyF_cons, prettyT_el]
        simp
      rw [hshape] at hfuel
      obtain ⟨v, h1, h2⟩ := parse_el_core d n a ch tl hn hnb ha Hc Htl
        (lead ++ indentOf d) sp rtail fuel hP hsp hrt hfuel
      refine ⟨v, ?_, ?_⟩
      · rw [hshape]
        exact h1
      · rw [h2, prettyRaw_ws d (by
          intro x hx
          rcases List.mem_append.mp hx with hx | hx
          · exact hlead x hx
          · exact indentOf_ws d x hx), List.nil_append, prettyF_cons]
    · -- text head
      by_cases he : stripWs (escapeMin s) = []
      · -- unprintable text node: same printed text as the tail alone
        have htl : ParseRT tl := by
          apply ih tl ?_ ?_
          · rw [countF_cons, countT] at hc
            omega
          · simp only [cleanOkF, Bool.and_eq_true] at hok
            exact hok.2
        intro d lead sp rtail fuel hlead hsp hrt hfuel
        have hpr : prettyF d (.cons (.txt s) tl) = prettyF d tl := by
          rw [prettyF_cons, prettyT_txt, if_pos he, List.nil_append]
        rw [hpr] at hfuel ⊢
        exact htl d lead sp rtail fuel hlead hsp hrt hfuel
      · rcases tl with _ | ⟨t2, tl2⟩
        · exact parseRT_txt_nil s he
        rcases t2 with ⟨n2, a2, c2⟩ | ⟨s2⟩
        · -- text then element
          rw [countF_cons, countF_cons, countT, countT] at hc
          simp only [cleanOkF, Bool.and_eq_true] at hok
          obtain ⟨_, hokT2, hokTl2⟩ := hok
          simp only [cleanOkT, Bool.and_eq_true, decide_eq_true_eq] at hokT2
          obtain ⟨⟨⟨hn, hnb⟩, hall⟩, hokCh⟩ := hokT2
          have ha : ∀ kv ∈ a2, wfAttrEntry kv = true ∧ kv.1 ∈ attrAllowlist := by
            intro kv hkv
            rw [List.all_eq_true] at hall
            have := hall kv hkv
            rw [Bool.and_eq_true, decide_eq_true_eq] at this
            exact this
          have Hc : ParseRT c2 := ih c2 (by omega) hokCh
          have Htl : ParseRT tl2 := ih tl2 (by omega) hokTl2
          have hne : escapeMin (stripWs s) ≠ [] := by
            rw [← stripWs_escapeMin]
            exact he
          have hself : stripWs (stripWs s) = stripWs s := stripWs_idem s
          intro d lead sp rtail fuel hlead hsp hrt hfuel
          have hP : ∀ x ∈ lead ++ (indentOf d ++ (escapeMin (stripWs s) ++
              ('\n' :: indentOf d))), neLtChar x = true := by
            intro x hx
            have hx2 : x ∈ lead ∨ x ∈ indentOf d ∨ x ∈ escapeMin (stripWs s) ∨ x = '\n' ∨
                x ∈ indentOf d := by
              simpa [List.mem_append, or_assoc] using hx
            rcases hx2 with hx2 | hx2 | hx2 | rfl | hx2
            · exact space_neLt (hlead x hx2)
            · exact space_neLt (indentOf_ws d x hx2)
            · exact escapeMin_neLt x hx2
            · decide
            · exact space_neLt (indentOf_ws d x hx2)
          have hshape : lead ++ (prettyF d (.cons (.txt s) (.cons (.el n2 a2 c2) tl2)) ++
              (sp ++ rtail)) =
              (lead ++ (indentOf d ++ (escapeMin (stripWs s) ++ ('\n' :: indentOf d)))) ++
                '<' :: (n2 ++ (renderAttrs (sortAttrs a2) ++ '>' :: '\n' ::
                (prettyF (d + 1) c2 ++ (indentOf d ++ '<' :: '/' :: (n2 ++ '>' :: '\n' ::
                (prettyF d tl2 ++ (sp ++ rtail))))))) := by
            rw [prettyF_cons, prettyF_cons, prettyT_txt, if_neg he, stripWs_escapeMin,
              prettyT_el]
            simp
          rw [hshape] at hfuel
          obtain ⟨v, h1, h2⟩ := parse_el_core d n2 a2 c2 tl2 hn hnb ha Hc Htl
            (lead ++ (indentOf d ++ (escapeMin (stripWs s) ++ ('\n' :: indentOf d))))
            sp rtail fuel hP hsp hrt hfuel
          refine ⟨v, ?_, ?_⟩
          · rw [hshape]
            exact h1
          · rw [h2, prettyRaw, if_neg (by simp [hne]), prettyF_cons, prettyF_cons]
            rw [show lead ++ (indentOf d ++ (escapeMin (stripWs s) ++ ('\n' :: indentOf d))) =
              (lead ++ indentOf d) ++ (escapeMin (stripWs s) ++ ('\n' :: indentOf d)) by simp]
            rw [prettyT_txt_sandwich d (stripWs s)
              (by
                intro x hx
                rcases List.mem_append.mp hx with hx | hx
                · exact hlead x hx
                · exact indentOf_ws d x hx)
              (by
                intro x hx
                rcases List.mem_cons.mp hx with rfl | hx
                · rfl
                · exact indentOf_ws d x hx)
              hself hne]
            rw [prettyT_txt, if_neg he, stripWs_escapeMin]
        · -- two adjacent text nodes
          by_cases he2 : stripWs (escapeMin s2) = []
          · -- second is unprintable: same printed text as without it
            have hred : ParseRT (.cons (.txt s) tl2) := by
              apply ih _ ?_ ?_
              · rw [countF_cons, countF_cons, countT, countT] at hc
                rw [countF_cons, countT]
                omega
              · simp only [cleanOkF, cleanOkT, Bool.and_eq_true] at hok ⊢
                exact ⟨trivial, hok.2.2⟩
            intro d lead sp rtail fuel hlead hsp hrt hfuel
            have hpr : prettyF d (.cons (.txt s) (.cons (.txt s2) tl2)) =
                prettyF d (.cons (.txt s) tl2) := by
              rw [prettyF_cons, prettyF_cons, prettyF_cons, prettyT_txt d s2, if_pos he2,
                List.nil_append]
            rw [hpr] at hfuel ⊢
            exact hred d lead sp rtail fuel hlead hsp hrt hfuel
          · -- both printable: merge them into one text node
            have hne1 : escapeMin (stripWs s) ≠ [] := by
              rw [← stripWs_escapeMin]
              exact he
            have hne2 : escapeMin (stripWs s2) ≠ [] := by
              rw [← stripWs_escapeMin]
              exact he2
            intro d lead sp rtail fuel hlead hsp hrt hfuel
            have hm : ParseRT (.cons (.txt (stripWs s ++ '\n' ::
                (indentOf d ++ stripWs s2))) tl2) := by
              apply ih _ ?_ ?_
              · rw [countF_cons, countF_cons, countT, countT] at hc
                rw [countF_cons, countT]
                omega
              · simp only [cleanOkF, cleanOkT, Bool.and_eq_true] at hok ⊢
                exact ⟨trivial, hok.2.2⟩
            have hpr : prettyF d (.cons (.txt s) (.cons (.txt s2) tl2)) =
                prettyF d (.cons (.txt (stripWs s ++ '\n' ::
                  (indentOf d ++ stripWs s2))) tl2) := by
              rw [prettyF_cons, prettyF_cons, prettyF_cons,
                prettyT_txt_merge d (stripWs s) (stripWs s2) (stripWs_idem s)
                  (stripWs_idem s2) hne1 hne2]
              simp only [prettyT_txt, stripWs_escapeMin, if_neg hne1, if_neg hne2]
              simp
            rw [hpr] at hfuel ⊢
            exact hm d lead sp rtail fuel hlead hsp hrt hfuel

/-- C10: `clean_dom` is idempotent.  For every well-formed parsed document
`f` (element and text nodes, parser-producible tag and attribute names,
attribute values without a double quote), re-parsing the normalised output
`clean_dom f` and normalising again returns exactly the same string:
`clean_dom(clean_dom(h)) == clean_dom(h)`. -/
theorem clean_dom_idempotent (f : Forest) (hwf : wfF f = true) :
    clean_dom_str (clean_dom f) = some (clean_dom f) := by
  have hok := cleanOk_cleanForest f hwf
  have hrt := parseRT_of_cleanOk (countF (cleanForest f)) (cleanForest f) le_rfl hok
  obtain ⟨v, hp, hr⟩ := hrt 0 [] [] [] ((prettyF 0 (cleanForest f)).length + 1)
    (by simp) (by simp) (Or.inl rfl) (by simp)
  have hp2 : parseNodes ((prettyF 0 (cleanForest f)).length + 1)
      (prettyF 0 (cleanForest f)) = some (v, []) := by
    simpa using hp
  show (parseDom (clean_dom f)).map clean_dom = some (clean_dom f)
  rw [clean_dom, parseDom, hp2]
  show some (clean_dom v) = some (prettyF 0 (cleanForest f))
  rw [clean_dom, hr]

/-- Witness for C10 at a concrete document with attributes inside and
outside the allow-list, a stripped `script` element, entity-escaped text
and a multi-line text node. -/
theorem clean_dom_idempotent_witness :
    clean_dom_str (clean_dom exampleDoc) = some (clean_dom exampleDoc) :=
  clean_dom_idempotent exampleDoc (by decide)

end Softlight
